import Mathlib

/-!
# Verification of the Hex MCTS engine

A shallow embedding of the board, winner detection, playout loop and MCTS
tree bookkeeping of the Hex-MCTS-CPP14 repository (the `Cell_state`-based
variant: `board.h`/`board.cpp` in `src/unnamed/part_008` and the
`Mcts_agent` variant at the top of `src/mcts_agent.cpp`), together with
proofs of the specification's claims about them.

Machine integers (`int` coordinates and sizes) are modelled as `ℤ`;
the counters (`win_count`, `visit_count`) as `ℕ`; `std::vector` grids as
`List (List Cell_state)`.  C++ exceptions are modelled with explicit error
values.  The `double` win ratio is modelled exactly in `ℚ` and the
`double` UCT score in `WithTop ℝ` (the sentinel
`std::numeric_limits<double>::max()` is modelled as `⊤`, which dominates
every attainable finite score just as `DBL_MAX` does).
-/

/-- `enum class Cell_state` from `cell_state.h`: Empty, Blue, Red. -/
inductive Cell_state where
  | Empty
  | Blue
  | Red
deriving DecidableEq, Repr

/-- Reading `grid[x][y]` from a `std::vector<std::vector<Cell_state>>`.
In the C++ code every read is guarded by `is_within_bounds`, so the
out-of-range defaults chosen here are never observable through the
board operations. -/
def getCell (g : List (List Cell_state)) (x y : ℤ) : Cell_state :=
  (g.getD x.toNat []).getD y.toNat Cell_state.Empty

/-- Writing `grid[x][y] = v`. -/
def setCell (g : List (List Cell_state)) (x y : ℤ) (v : Cell_state) :
    List (List Cell_state) :=
  g.set x.toNat ((g.getD x.toNat []).set y.toNat v)

/-- The C++ exceptions that the Board operations can raise:
`std::invalid_argument` (explicit `throw`s in `Board`) and
`std::length_error` (raised by `std::vector`'s count constructor when a
negative `int` count is converted to an enormous `size_t`). -/
inductive CppError where
  | invalidArgument
  | lengthError
deriving DecidableEq, Repr

/-- The `Board` class: a size and a grid of cell states. -/
structure Board where
  board_size : ℤ
  board : List (List Cell_state)
deriving DecidableEq, Repr

/-- `Board::Board(int size)`.  The member initializer list runs before the
constructor body: `board(size, std::vector<Cell_state>(size, Empty))`
converts a negative `size` to a huge `size_t`, making `std::vector` throw
`std::length_error` before the body's `size < 2` check can throw
`std::invalid_argument`. -/
def Board.new (size : ℤ) : Except CppError Board :=
  if size < 0 then Except.error CppError.lengthError
  else if size < 2 then Except.error CppError.invalidArgument
  else Except.ok { board_size := size,
                   board := List.replicate size.toNat
                              (List.replicate size.toNat Cell_state.Empty) }

/-- `Board::is_within_bounds`. -/
def Board.is_within_bounds (b : Board) (move_x move_y : ℤ) : Bool :=
  decide (0 ≤ move_x) && decide (move_x < b.board_size) &&
  decide (0 ≤ move_y) && decide (move_y < b.board_size)

/-- `Board::is_valid_move`: within bounds and the target cell is empty. -/
def Board.is_valid_move (b : Board) (move_x move_y : ℤ) : Bool :=
  b.is_within_bounds move_x move_y &&
  decide (getCell b.board move_x move_y = Cell_state.Empty)

/-- `Board::make_move`: throws `std::invalid_argument` when the move is
invalid (leaving the grid untouched), otherwise sets the cell.  The result
pair is (state of the board after the call, exception raised if any). -/
def Board.make_move (b : Board) (move_x move_y : ℤ) (player : Cell_state) :
    Board × Option CppError :=
  if b.is_valid_move move_x move_y then
    ({ b with board := setCell b.board move_x move_y player }, none)
  else
    (b, some CppError.invalidArgument)

/-- The six neighbour offsets, in the order given by
`neighbour_offset_x = {-1,-1,0,1,1,0}` and
`neighbour_offset_y = {0,1,1,0,-1,-1}` in `board.h`. -/
def neighbour_offsets : List (ℤ × ℤ) :=
  [(-1, 0), (-1, 1), (0, 1), (1, 0), (1, -1), (0, -1)]

/-- `Board::depth_first_search`.  The C++ function marks the start cell
Empty in the snapshot, recurses into same-coloured in-bounds neighbours,
and restores the mark before returning on every path, so a caller's
snapshot is unchanged after the call; the recursion terminates because
every recursive call is made on a snapshot with one fewer `player_symbol`
cell.  Here the function takes a fuel argument; `fuel = size² + 1` (used
by `check_winner` below) over-approximates that bound, and the proofs
below show the result is then fuel-independent. -/
def Board.depth_first_search (b : Board) (player_symbol : Cell_state)
    (dest : ℤ × ℤ) : ℕ → ℤ × ℤ → List (List Cell_state) → Bool
  | 0, _, _ => false
  | fuel + 1, start, snap =>
    if start = dest then true
    else
      let snap1 := setCell snap start.1 start.2 Cell_state.Empty
      neighbour_offsets.any fun d =>
        b.is_within_bounds (start.1 + d.1) (start.2 + d.2) &&
        decide (getCell snap1 (start.1 + d.1) (start.2 + d.2) = player_symbol) &&
        b.depth_first_search player_symbol dest fuel
          (start.1 + d.1, start.2 + d.2) snap1

/-- `Board::check_winner`: scan Blue sources on row 0 against Blue targets
on row size−1, then Red sources on column 0 against Red targets on column
size−1; each inner iteration searches on a fresh copy of the grid. -/
def Board.check_winner (b : Board) : Cell_state :=
  let n := b.board_size.toNat
  let fuel := n * n + 1
  if (List.range n).any (fun (t : ℕ) =>
      decide (getCell b.board 0 (t : ℤ) = Cell_state.Blue) &&
      (List.range n).any (fun (bi : ℕ) =>
        decide (getCell b.board (b.board_size - 1) (bi : ℤ) = Cell_state.Blue) &&
        b.depth_first_search Cell_state.Blue (b.board_size - 1, (bi : ℤ))
          fuel (0, (t : ℤ)) b.board)) then
    Cell_state.Blue
  else if (List.range n).any (fun (l : ℕ) =>
      decide (getCell b.board (l : ℤ) 0 = Cell_state.Red) &&
      (List.range n).any (fun (r : ℕ) =>
        decide (getCell b.board (r : ℤ) (b.board_size - 1) = Cell_state.Red) &&
        b.depth_first_search Cell_state.Red ((r : ℤ), b.board_size - 1)
          fuel ((l : ℤ), 0) b.board)) then
    Cell_state.Red
  else
    Cell_state.Empty

/-- `Board::get_valid_moves`: row-major scan collecting every valid cell. -/
def Board.get_valid_moves (b : Board) : List (ℤ × ℤ) :=
  (List.range b.board_size.toNat).flatMap fun (row : ℕ) =>
    (List.range b.board_size.toNat).filterMap fun (col : ℕ) =>
      if b.is_valid_move (row : ℤ) (col : ℤ) then
        some ((row : ℤ), (col : ℤ))
      else none

/-- Shape invariant satisfied by every board produced by `Board.new`:
the grid is a `board_size × board_size` matrix and the size is at least 2. -/
def Board.WF (b : Board) : Prop :=
  2 ≤ b.board_size ∧ b.board.length = b.board_size.toNat ∧
    ∀ row ∈ b.board, row.length = b.board_size.toNat

instance (b : Board) : Decidable b.WF := by
  unfold Board.WF
  exact inferInstance

/-- `Mcts_agent::Node`: counters, move, player, and the chain of parent
pointers up to the sentinel root (`parent_node = none` at the root).
`child_nodes` lists are handled separately, as the code only ever reads
them through the node that owns them. -/
inductive Node where
  | mk (win_count : ℕ) (visit_count : ℕ) (move : ℤ × ℤ)
       (player : Cell_state) (parent_node : Option Node)

def Node.win_count : Node → ℕ
  | .mk w _ _ _ _ => w

def Node.visit_count : Node → ℕ
  | .mk _ v _ _ _ => v

def Node.move : Node → ℤ × ℤ
  | .mk _ _ m _ _ => m

def Node.player : Node → Cell_state
  | .mk _ _ _ p _ => p

def Node.parent_node : Node → Option Node
  | .mk _ _ _ _ par => par

/-- `Node::Node(player, move, parent_node)`: both counters start at 0. -/
def Node.new (player : Cell_state) (move : ℤ × ℤ)
    (parent_node : Option Node) : Node :=
  Node.mk 0 0 move player parent_node

/-- Following the parent chain to the sentinel root. -/
def Node.rootNode : Node → Node
  | .mk w v m p none => .mk w v m p none
  | .mk _ _ _ _ (some par) => par.rootNode

/-- Number of cells holding `p` in a grid (the termination measure of the
C++ `depth_first_search`, and, for `p = Empty`, the playout loop bound). -/
def countCells (p : Cell_state) (g : List (List Cell_state)) : ℕ :=
  (g.map fun row => row.countP fun c => decide (c = p)).sum

/-- `Mcts_agent::expand_node`: one child per valid move, in
`get_valid_moves` order, constructed as `Node(node->player, move, node)`. -/
def Mcts_agent.expand_node (node : Node) (board : Board) : List Node :=
  board.get_valid_moves.map fun move => Node.new node.player move (some node)

/-- `Mcts_agent::backpropagate`: walk from the node through the parent
chain, incrementing `visit_count` and, when the winner matches the node's
player, `win_count`. -/
def Mcts_agent.backpropagate (winner : Cell_state) : Node → Node
  | .mk w v m p par =>
    Node.mk (if winner = p then w + 1 else w) (v + 1) m p
      (match par with
       | none => none
       | some q => some (Mcts_agent.backpropagate winner q))

/-- The errors `Mcts_agent` raises; `insufficientBudget` is the
`std::runtime_error` of `select_best_child`. -/
inductive MctsError where
  | insufficientBudget
deriving DecidableEq, Repr

/-- The `double` win ratio `win_count / visit_count`, modelled exactly. -/
def Mcts_agent.win_ratio (c : Node) : ℚ :=
  (c.win_count : ℚ) / (c.visit_count : ℚ)

/-- One step of the `select_best_child` loop.  In the C++ code the ratio
of an unvisited child is the `double` division `0.0 / 0.0 = NaN`, and
`NaN > max_win_ratio` is false, so an unvisited child never replaces
`best_child`; that is the `visit_count = 0` branch here.  For visited
children the comparison of exact rationals agrees with the `double`
comparison. -/
def Mcts_agent.sbc_step (acc : Option Node × ℚ) (child : Node) :
    Option Node × ℚ :=
  if child.visit_count = 0 then acc
  else if acc.2 < Mcts_agent.win_ratio child then
    (some child, Mcts_agent.win_ratio child)
  else acc

/-- `Mcts_agent::select_best_child`, scanning `root->child_nodes` (passed
here as the explicit list `children`) with `max_win_ratio` starting at −1
and `best_child` starting null; throws when no child was ever selected. -/
def Mcts_agent.select_best_child (children : List Node) :
    Except MctsError Node :=
  match (children.foldl Mcts_agent.sbc_step (none, -1)).1 with
  | none => Except.error MctsError.insufficientBudget
  | some c => Except.ok c

/-- `Mcts_agent::calculate_uct_score`.  The sentinel
`std::numeric_limits<double>::max()` returned for unvisited children is
modelled as `⊤`, which dominates every attainable finite score exactly as
`DBL_MAX` dominates the finite scores arising in the search. -/
noncomputable def Mcts_agent.calculate_uct_score (exploration_factor : ℝ)
    (child_node parent_node : Node) : WithTop ℝ :=
  if child_node.visit_count = 0 then ⊤
  else (((child_node.win_count : ℝ) / (child_node.visit_count : ℝ)
    + exploration_factor *
        Real.sqrt (Real.log (parent_node.visit_count : ℝ) /
          (child_node.visit_count : ℝ)) : ℝ) : WithTop ℝ)

open Classical in
/-- One step of the `select_child_for_playout` loop: replace the best
child exactly when the new child's UCT score is strictly greater. -/
noncomputable def Mcts_agent.scp_step (exploration_factor : ℝ)
    (parent_node : Node) (acc : Node × WithTop ℝ) (child : Node) :
    Node × WithTop ℝ :=
  if acc.2 < Mcts_agent.calculate_uct_score exploration_factor child parent_node
  then (child, Mcts_agent.calculate_uct_score exploration_factor child parent_node)
  else acc

/-- `Mcts_agent::select_child_for_playout`: start from `child_nodes[0]`
and scan the remaining children in stored order.  Indexing
`child_nodes[0]` on an empty vector is undefined behaviour, modelled as
`none`. -/
noncomputable def Mcts_agent.select_child_for_playout
    (exploration_factor : ℝ) (parent_node : Node) (children : List Node) :
    Option Node :=
  match children with
  | [] => none
  | c0 :: rest =>
    some (rest.foldl (Mcts_agent.scp_step exploration_factor parent_node)
      (c0, Mcts_agent.calculate_uct_score exploration_factor c0 parent_node)).1

/-- The player switch `(current == Blue) ? Red : Blue`. -/
def Mcts_agent.other_player (current_player : Cell_state) : Cell_state :=
  if current_player = Cell_state.Blue then Cell_state.Red else Cell_state.Blue

/-- The `while (board.check_winner() == Empty)` loop of
`Mcts_agent::simulate_random_playout`.  The random draw
`distribution(random_generator)` on `[0, valid_moves.size()-1]` is
modelled by an oracle stream of naturals reduced mod the list length
(`oracle k` is the k-th draw); an empty move list makes the C++
`uniform_int_distribution(0, -1)` undefined, modelled as `none`.  The
fuel decreases once per iteration; since every iteration fills one empty
cell, `countCells Empty + 1` fuel (supplied by `simulate_random_playout`)
is never exhausted. -/
def Mcts_agent.playout_loop (oracle : ℕ → ℕ) :
    ℕ → Cell_state → Board → ℕ → Option Cell_state
  | 0, _, _, _ => none
  | fuel + 1, current_player, board, k =>
    if board.check_winner = Cell_state.Empty then
      let next := Mcts_agent.other_player current_player
      let valid_moves := board.get_valid_moves
      if valid_moves.length = 0 then none
      else
        let random_move := valid_moves.getD (oracle k % valid_moves.length) (0, 0)
        let r := board.make_move random_move.1 random_move.2 next
        match r.2 with
        | some _ => none
        | none =>
          if r.1.check_winner = Cell_state.Empty then
            Mcts_agent.playout_loop oracle fuel next r.1 (k + 1)
          else some next
    else some current_player

/-- `Mcts_agent::simulate_random_playout`: apply the node's move for the
node's player on the copied board, then run the playout loop. -/
def Mcts_agent.simulate_random_playout (oracle : ℕ → ℕ) (node : Node)
    (board : Board) : Option Cell_state :=
  let r := board.make_move node.move.1 node.move.2 node.player
  match r.2 with
  | some _ => none
  | none =>
    Mcts_agent.playout_loop oracle (countCells Cell_state.Empty r.1.board + 1)
      node.player r.1 0

/-- Hex adjacency as the specification states it: two cells are adjacent
when their difference is one of the six neighbour offsets. -/
def Adjacent (q r : ℤ × ℤ) : Prop :=
  (r.1 - q.1, r.2 - q.2) ∈ neighbour_offsets

instance (q r : ℤ × ℤ) : Decidable (Adjacent q r) := by
  unfold Adjacent
  exact inferInstance

/-- A path of `p`-occupied cells on the board: a nonempty list of
pairwise-consecutively adjacent positions, each within bounds and
holding `p`. -/
def IsPath (b : Board) (p : Cell_state) (l : List (ℤ × ℤ)) : Prop :=
  l ≠ [] ∧ l.Chain' Adjacent ∧
    ∀ q ∈ l, b.is_within_bounds q.1 q.2 = true ∧ getCell b.board q.1 q.2 = p

/-- A Blue path connects some cell in row 0 to some cell in row size−1. -/
def BlueConnects (b : Board) : Prop :=
  ∃ (l : List (ℤ × ℤ)) (s t : ℤ × ℤ), IsPath b Cell_state.Blue l ∧
    l.head? = some s ∧ s.1 = 0 ∧
    l.getLast? = some t ∧ t.1 = b.board_size - 1

/-- A Red path connects some cell in column 0 to some cell in
column size−1. -/
def RedConnects (b : Board) : Prop :=
  ∃ (l : List (ℤ × ℤ)) (s t : ℤ × ℤ), IsPath b Cell_state.Red l ∧
    l.head? = some s ∧ s.2 = 0 ∧
    l.getLast? = some t ∧ t.2 = b.board_size - 1

/-- Every in-bounds cell is occupied. -/
def Board.isFull (b : Board) : Bool :=
  b.board.all fun row => row.all fun c => decide (c ≠ Cell_state.Empty)

/-- The triangular Y-board of side `m + 1`: cells with nonnegative
coordinates summing to at most `m`. -/
def InY (m : ℕ) (q : ℤ × ℤ) : Prop :=
  0 ≤ q.1 ∧ 0 ≤ q.2 ∧ q.1 + q.2 ≤ (m : ℤ)

/-- Reachability through cells satisfying `S`, along `Adjacent` steps. -/
def ReachIn (S : ℤ × ℤ → Prop) : ℤ × ℤ → ℤ × ℤ → Prop :=
  Relation.ReflTransGen fun a c => Adjacent a c ∧ S a ∧ S c

/-- Majority of three booleans (the Y-game reduction colouring). -/
def majority3 (x y z : Bool) : Bool :=
  (x && y) || (y && z) || (x && z)

/-- The reduced colouring of the Y-game argument: a cell takes the
majority colour of its upward triangle. -/
def reduceY (c : ℤ × ℤ → Bool) (q : ℤ × ℤ) : Bool :=
  majority3 (c q) (c (q.1 + 1, q.2)) (c (q.1, q.2 + 1))

/-- Membership in the upward triangle of `q` (the three cells merged by
one step of the Y-game reduction), in coordinate form. -/
def TriMem (q x : ℤ × ℤ) : Prop :=
  (x.1 = q.1 ∧ x.2 = q.2) ∨ (x.1 = q.1 + 1 ∧ x.2 = q.2) ∨
    (x.1 = q.1 ∧ x.2 = q.2 + 1)

/-- The colouring of the Y-board of side `2n − 1` obtained by padding an
`n × n` Hex grid: rows `≥ n` are Blue (`true`), the remaining columns
`≥ n` are Red (`false`), and the rhombus `[0,n)²` keeps the grid colour. -/
def padHex (g : List (List Cell_state)) (n : ℤ) (q : ℤ × ℤ) : Bool :=
  if n ≤ q.1 then true
  else if n ≤ q.2 then false
  else decide (getCell g q.1 q.2 = Cell_state.Blue)

/-- The counters invariant `win_count ≤ visit_count`, along the whole
parent chain. -/
def Node.counters_ok : Node → Bool
  | .mk w v _ _ none => decide (w ≤ v)
  | .mk w v _ _ (some q) => decide (w ≤ v) && q.counters_ok

/-- Claim C3: one call of `backpropagate` on a depth-1 tree (root `r`,
child `c`) increments `c.visit_count` by exactly 1, increments
`c.win_count` by 1 exactly when the winner is `c.player`, increments
`r.visit_count` by exactly 1, increments `r.win_count` by 1 exactly when
the winner is `r.player`, and changes nothing else. -/
theorem backpropagate_depth1 (winner : Cell_state) (w v : ℕ) (m : ℤ × ℤ)
    (p : Cell_state) (w2 v2 : ℕ) (m2 : ℤ × ℤ) (p2 : Cell_state) :
    Mcts_agent.backpropagate winner
        (Node.mk w v m p (some (Node.mk w2 v2 m2 p2 none)))
      = Node.mk (if winner = p then w + 1 else w) (v + 1) m p
          (some (Node.mk (if winner = p2 then w2 + 1 else w2) (v2 + 1) m2 p2 none)) :=
  rfl

/-- Counterexample to claim C4: with the sentinel root owned by Blue and
a Blue playout winner, one `backpropagate` call increments the root's
`win_count` (from 0 to 1), contradicting the claim that it is not
incremented. -/
theorem backpropagate_root_win_counterexample :
    Cell_state.Blue =
        (Node.mk 0 0 (0, 0) Cell_state.Blue
          (some (Node.mk 0 0 (-1, -1) Cell_state.Blue none))).rootNode.player ∧
    (Mcts_agent.backpropagate Cell_state.Blue
        (Node.mk 0 0 (0, 0) Cell_state.Blue
          (some (Node.mk 0 0 (-1, -1) Cell_state.Blue none)))).rootNode.win_count
      = (Node.mk 0 0 (0, 0) Cell_state.Blue
          (some (Node.mk 0 0 (-1, -1) Cell_state.Blue none))).rootNode.win_count + 1 :=
  ⟨rfl, rfl⟩

/-- Claim C4 (amended): the walk of `backpropagate` includes the sentinel
root, whose `visit_count` is always incremented by exactly 1 and whose
`win_count` is incremented by 1 exactly when the winner equals the root's
player (the root counter is informational and unused by final selection). -/
theorem backpropagate_root_accounting (winner : Cell_state) :
    ∀ nd : Node,
      (Mcts_agent.backpropagate winner nd).rootNode.visit_count
          = nd.rootNode.visit_count + 1 ∧
      (Mcts_agent.backpropagate winner nd).rootNode.win_count
          = nd.rootNode.win_count + (if winner = nd.rootNode.player then 1 else 0)
  | .mk w v m p none => by
    refine ⟨rfl, ?_⟩
    simp only [Mcts_agent.backpropagate, Node.rootNode, Node.win_count, Node.player]
    by_cases h : winner = p <;> simp [h]
  | .mk w v m p (some q) => by
    have ih := backpropagate_root_accounting winner q
    simpa only [Mcts_agent.backpropagate, Node.rootNode] using ih

/-- Counterexample to claim C9: constructing a board with a negative size
fails, but with `length_error` from the grid vector's count constructor
(which runs in the member initializer list, before the `size < 2` check),
not with `invalid_argument`. -/
theorem board_new_negative_counterexample :
    Board.new (-1) = Except.error CppError.lengthError ∧
    CppError.lengthError ≠ CppError.invalidArgument :=
  ⟨rfl, by decide⟩

/-- Claim C9 (amended): construction fails for every size < 2 — with
`length_error` for negative sizes (thrown while building the grid vector,
before the constructor body runs) and with `invalid_argument` for sizes 0
and 1; `make_move` fails with `invalid_argument` exactly when
`is_valid_move` is false (out-of-bounds or occupied target), otherwise it
sets `grid[r][c] = player`; in every failing case the board is unchanged. -/
theorem board_construction_and_make_move :
    (∀ size : ℤ, 0 ≤ size → size < 2 →
        Board.new size = Except.error CppError.invalidArgument) ∧
    (∀ size : ℤ, size < 0 → Board.new size = Except.error CppError.lengthError) ∧
    (∀ b : Board, ∀ x y : ℤ,
        b.is_valid_move x y = false ↔
          (b.is_within_bounds x y = false ∨ getCell b.board x y ≠ Cell_state.Empty)) ∧
    (∀ b : Board, ∀ x y : ℤ, ∀ p : Cell_state,
        ((b.make_move x y p).2 = some CppError.invalidArgument ↔
          b.is_valid_move x y = false)) ∧
    (∀ b : Board, ∀ x y : ℤ, ∀ p : Cell_state,
        (b.make_move x y p).2 ≠ none → (b.make_move x y p).1 = b) ∧
    (∀ b : Board, ∀ x y : ℤ, ∀ p : Cell_state, b.is_valid_move x y = true →
        (b.make_move x y p).1.board = setCell b.board x y p ∧
        (b.make_move x y p).1.board_size = b.board_size ∧
        (b.make_move x y p).2 = none) := by
  refine ⟨?_, ?_, ?_, ?_, ?_, ?_⟩
  · intro size h0 h2
    simp [Board.new, not_lt.mpr h0, h2]
  · intro size h
    simp [Board.new, h]
  · intro b x y
    cases hb : b.is_within_bounds x y <;> simp [Board.is_valid_move, hb]
  · intro b x y p
    by_cases h : b.is_valid_move x y = true <;> simp [Board.make_move, h]
  · intro b x y p
    by_cases h : b.is_valid_move x y = true <;> simp [Board.make_move, h]
  · intro b x y p h
    simp [Board.make_move, h]

/-- Witness for `board_construction_and_make_move` at concrete inputs. -/
theorem board_construction_and_make_move_witness :
    Board.new 1 = Except.error CppError.invalidArgument ∧
    Board.new (-7) = Except.error CppError.lengthError ∧
    (((Board.mk 2 [[Cell_state.Empty, Cell_state.Empty],
        [Cell_state.Empty, Cell_state.Empty]]).make_move 0 1 Cell_state.Blue).1.board
      = setCell [[Cell_state.Empty, Cell_state.Empty],
        [Cell_state.Empty, Cell_state.Empty]] 0 1 Cell_state.Blue) :=
  ⟨board_construction_and_make_move.1 1 (by decide) (by decide),
   board_construction_and_make_move.2.1 (-7) (by decide),
   (board_construction_and_make_move.2.2.2.2.2 _ 0 1 Cell_state.Blue (by decide)).1⟩

/-- Helper: `backpropagate` preserves `win_count ≤ visit_count` along the
whole parent chain. -/
theorem backpropagate_counters_ok (winner : Cell_state) :
    ∀ nd : Node, nd.counters_ok = true →
      (Mcts_agent.backpropagate winner nd).counters_ok = true
  | .mk w v m p none => by
    intro h
    simp only [Node.counters_ok, decide_eq_true_eq] at h
    simp only [Mcts_agent.backpropagate, Node.counters_ok, decide_eq_true_eq]
    split <;> omega
  | .mk w v m p (some q) => by
    intro h
    simp only [Node.counters_ok, Bool.and_eq_true, decide_eq_true_eq] at h
    simp only [Mcts_agent.backpropagate, Node.counters_ok, Bool.and_eq_true,
      decide_eq_true_eq]
    exact ⟨by split <;> omega, backpropagate_counters_ok winner q h.2⟩

/-- Claim C10: every node starts with both counters at 0 (constructor and
expansion), each `backpropagate` step increments `visit_count` by exactly
1 and `win_count` by at most 1, and `win_count ≤ visit_count` is preserved
along the whole walk. -/
theorem counters_invariant :
    (∀ (p : Cell_state) (m : ℤ × ℤ) (par : Option Node),
        (Node.new p m par).win_count = 0 ∧ (Node.new p m par).visit_count = 0) ∧
    (∀ (nd : Node) (b : Board), ∀ c ∈ Mcts_agent.expand_node nd b,
        c.win_count = 0 ∧ c.visit_count = 0) ∧
    (∀ (winner : Cell_state) (nd : Node),
        (Mcts_agent.backpropagate winner nd).visit_count = nd.visit_count + 1 ∧
        nd.win_count ≤ (Mcts_agent.backpropagate winner nd).win_count ∧
        (Mcts_agent.backpropagate winner nd).win_count ≤ nd.win_count + 1) ∧
    (∀ (winner : Cell_state) (nd : Node),
        nd.counters_ok = true →
          (Mcts_agent.backpropagate winner nd).counters_ok = true) := by
  refine ⟨fun p m par => ⟨rfl, rfl⟩, ?_, ?_, backpropagate_counters_ok⟩
  · intro nd b c hc
    simp only [Mcts_agent.expand_node, List.mem_map] at hc
    obtain ⟨mv, _, rfl⟩ := hc
    exact ⟨rfl, rfl⟩
  · intro winner nd
    obtain ⟨w, v, m, p, par⟩ := nd
    unfold Mcts_agent.backpropagate
    simp only [Node.win_count, Node.visit_count]
    refine ⟨trivial, ?_, ?_⟩ <;> split <;> omega

/-- Witness for `counters_invariant` at a concrete node and walk. -/
theorem counters_invariant_witness :
    (Node.mk 1 2 (0, 0) Cell_state.Blue
        (some (Node.mk 2 3 (-1, -1) Cell_state.Red none))).counters_ok = true ∧
    (Mcts_agent.backpropagate Cell_state.Blue
        (Node.mk 1 2 (0, 0) Cell_state.Blue
          (some (Node.mk 2 3 (-1, -1) Cell_state.Red none)))).counters_ok = true ∧
    ((Node.mk 0 0 (0, 0) Cell_state.Blue none) ∈
        Mcts_agent.expand_node (Node.mk 0 0 (-1, -1) Cell_state.Blue none)
          (Board.mk 2 [[Cell_state.Blue, Cell_state.Empty],
            [Cell_state.Blue, Cell_state.Blue]]) →
      (Node.mk 0 0 (0, 0) Cell_state.Blue none).win_count = 0) :=
  ⟨rfl,
   counters_invariant.2.2.2 Cell_state.Blue _ rfl,
   fun h => (counters_invariant.2.1 _ _ _ h).1⟩

/-- Helper: a win ratio of exact rationals is nonnegative, hence above the
initial `max_win_ratio = -1`. -/
theorem win_ratio_nonneg (c : Node) : 0 ≤ Mcts_agent.win_ratio c :=
  div_nonneg (Nat.cast_nonneg _) (Nat.cast_nonneg _)

/-- Helper: invariant of the `select_best_child` scan.  After folding over
any list, either nothing was selected and every scanned child is
unvisited, or the accumulator holds the earliest visited child attaining
the maximum win ratio. -/
theorem sbc_fold_inv (P : List Node) :
    (P.foldl Mcts_agent.sbc_step (none, -1) = (none, -1) ∧
      ∀ d ∈ P, d.visit_count = 0) ∨
    (∃ c l₁ l₂,
      P.foldl Mcts_agent.sbc_step (none, -1) = (some c, Mcts_agent.win_ratio c) ∧
      0 < c.visit_count ∧ P = l₁ ++ c :: l₂ ∧
      (∀ d ∈ l₁, 0 < d.visit_count →
        Mcts_agent.win_ratio d < Mcts_agent.win_ratio c) ∧
      (∀ d ∈ l₂, 0 < d.visit_count →
        Mcts_agent.win_ratio d ≤ Mcts_agent.win_ratio c)) := by
  induction P using List.reverseRecOn with
  | nil => exact Or.inl ⟨rfl, by simp⟩
  | append_singleton P x ih =>
    have hstep : (P ++ [x]).foldl Mcts_agent.sbc_step (none, -1)
        = Mcts_agent.sbc_step (P.foldl Mcts_agent.sbc_step (none, -1)) x := by
      simp [List.foldl_append]
    rcases ih with ⟨heq, hall⟩ | ⟨c, l₁, l₂, heq, hc, hP, h₁, h₂⟩
    · by_cases hx : x.visit_count = 0
      · refine Or.inl ⟨?_, ?_⟩
        · rw [hstep, heq]
          simp [Mcts_agent.sbc_step, hx]
        · intro d hd
          rcases List.mem_append.mp hd with hd | hd
          · exact hall d hd
          · simp only [List.mem_singleton] at hd
            subst hd; exact hx
      · refine Or.inr ⟨x, P, [], ?_, Nat.pos_of_ne_zero hx, by simp, ?_, by simp⟩
        · rw [hstep, heq]
          have : (-1 : ℚ) < Mcts_agent.win_ratio x :=
            lt_of_lt_of_le (by norm_num) (win_ratio_nonneg x)
          simp [Mcts_agent.sbc_step, hx, this]
        · intro d hd hdv
          exact absurd (hall d hd) (Nat.pos_iff_ne_zero.mp hdv)
    · by_cases hx : x.visit_count = 0
      · refine Or.inr ⟨c, l₁, l₂ ++ [x], ?_, hc, by simp [hP], h₁, ?_⟩
        · rw [hstep, heq]
          simp [Mcts_agent.sbc_step, hx]
        · intro d hd hdv
          rcases List.mem_append.mp hd with hd | hd
          · exact h₂ d hd hdv
          · simp only [List.mem_singleton] at hd
            subst hd
            exact absurd hx (Nat.pos_iff_ne_zero.mp hdv)
      · by_cases hlt : Mcts_agent.win_ratio c < Mcts_agent.win_ratio x
        · refine Or.inr ⟨x, l₁ ++ c :: l₂, [], ?_, Nat.pos_of_ne_zero hx,
            by simp [hP], ?_, by simp⟩
          · rw [hstep, heq]
            simp [Mcts_agent.sbc_step, hx, hlt]
          · intro d hd hdv
            rcases List.mem_append.mp hd with hd | hd
            · exact lt_trans (h₁ d hd hdv) hlt
            · rcases List.mem_cons.mp hd with hd | hd
              · subst hd; exact hlt
              · exact lt_of_le_of_lt (h₂ d hd hdv) hlt
        · refine Or.inr ⟨c, l₁, l₂ ++ [x], ?_, hc, by simp [hP], h₁, ?_⟩
          · rw [hstep, heq]
            simp [Mcts_agent.sbc_step, hx, hlt]
          · intro d hd hdv
            rcases List.mem_append.mp hd with hd | hd
            · exact h₂ d hd hdv
            · simp only [List.mem_singleton] at hd
              subst hd
              exact le_of_not_lt hlt

/-- Claim C2: `select_best_child` considers only children with positive
`visit_count`, returns the one with the maximum exact win ratio keeping
the earliest on ties, and fails with `insufficientBudget` exactly when no
child has any visits. -/
theorem select_best_child_spec (children : List Node) :
    (Mcts_agent.select_best_child children
        = Except.error MctsError.insufficientBudget ↔
      ∀ c ∈ children, c.visit_count = 0) ∧
    (∀ c : Node, Mcts_agent.select_best_child children = Except.ok c →
      0 < c.visit_count ∧
      (∀ d ∈ children, 0 < d.visit_count →
        Mcts_agent.win_ratio d ≤ Mcts_agent.win_ratio c) ∧
      ∃ l₁ l₂, children = l₁ ++ c :: l₂ ∧
        (∀ d ∈ l₁, 0 < d.visit_count →
          Mcts_agent.win_ratio d < Mcts_agent.win_ratio c) ∧
        (∀ d ∈ l₂, 0 < d.visit_count →
          Mcts_agent.win_ratio d ≤ Mcts_agent.win_ratio c)) := by
  rcases sbc_fold_inv children with ⟨heq, hall⟩ | ⟨c, l₁, l₂, heq, hc, hP, h₁, h₂⟩
  · constructor
    · simp only [Mcts_agent.select_best_child, heq]
      exact ⟨fun _ => hall, fun _ => trivial⟩
    · intro d hd
      simp only [Mcts_agent.select_best_child, heq] at hd
      cases hd
  · constructor
    · simp only [Mcts_agent.select_best_child, heq]
      constructor
      · intro h; cases h
      · intro hall
        have : c ∈ children := by
          rw [hP]; exact List.mem_append_right _ (List.mem_cons_self _ _)
        exact absurd (hall c this) (Nat.pos_iff_ne_zero.mp hc)
    · intro d hd
      simp only [Mcts_agent.select_best_child, heq, Except.ok.injEq] at hd
      subst hd
      refine ⟨hc, ?_, l₁, l₂, hP, h₁, h₂⟩
      intro e he hev
      rw [hP] at he
      rcases List.mem_append.mp he with he | he
      · exact le_of_lt (h₁ e he hev)
      · rcases List.mem_cons.mp he with he | he
        · subst he; exact le_refl _
        · exact h₂ e he hev

/-- Witness for `select_best_child_spec`: on a list with one unvisited and
one visited child the visited child is returned, with its maximality
certificate. -/
theorem select_best_child_spec_witness :
    Mcts_agent.select_best_child
        [Node.mk 0 0 (0, 0) Cell_state.Blue none,
         Node.mk 1 2 (0, 1) Cell_state.Blue none]
      = Except.ok (Node.mk 1 2 (0, 1) Cell_state.Blue none) ∧
    0 < (Node.mk 1 2 (0, 1) Cell_state.Blue none).visit_count := by
  have hsel : Mcts_agent.select_best_child
      [Node.mk 0 0 (0, 0) Cell_state.Blue none,
       Node.mk 1 2 (0, 1) Cell_state.Blue none]
      = Except.ok (Node.mk 1 2 (0, 1) Cell_state.Blue none) := by
    simp [Mcts_agent.select_best_child, Mcts_agent.sbc_step,
      Mcts_agent.win_ratio, Node.visit_count, Node.win_count]
    norm_num
  exact ⟨hsel, ((select_best_child_spec _).2 _ hsel).1⟩

/-- Helper: splitting a list at two marked elements — the marks coincide,
or one mark lies strictly before the other. -/
theorem two_splits {α : Type} {l₂ l₁' l₂' : List α} {a a' : α} :
    ∀ {l₁ : List α}, l₁ ++ a :: l₂ = l₁' ++ a' :: l₂' →
      (l₁ = l₁' ∧ a = a' ∧ l₂ = l₂') ∨ (a' ∈ l₁ ∧ a ∈ l₂') ∨ (a ∈ l₁' ∧ a' ∈ l₂) := by
  intro l₁
  induction l₁ generalizing l₁' with
  | nil =>
    intro h
    cases l₁' with
    | nil =>
      simp only [List.nil_append, List.cons.injEq] at h
      exact Or.inl ⟨rfl, h.1, h.2⟩
    | cons b t =>
      simp only [List.nil_append, List.cons_append, List.cons.injEq] at h
      refine Or.inr (Or.inr ⟨?_, ?_⟩)
      · rw [h.1]; exact List.mem_cons_self _ _
      · rw [h.2]; exact List.mem_append_right _ (List.mem_cons_self _ _)
  | cons b t ih =>
    intro h
    cases l₁' with
    | nil =>
      simp only [List.nil_append, List.cons_append, List.cons.injEq] at h
      refine Or.inr (Or.inl ⟨?_, ?_⟩)
      · rw [← h.1]; exact List.mem_cons_self _ _
      · rw [← h.2]; exact List.mem_append_right _ (List.mem_cons_self _ _)
    | cons b' t' =>
      simp only [List.cons_append, List.cons.injEq] at h
      rcases ih h.2 with ⟨ht, ha, hl⟩ | ⟨h1, h2⟩ | ⟨h1, h2⟩
      · exact Or.inl ⟨by rw [h.1, ht], ha, hl⟩
      · exact Or.inr (Or.inl ⟨List.mem_cons_of_mem _ h1, h2⟩)
      · exact Or.inr (Or.inr ⟨List.mem_cons_of_mem _ h1, h2⟩)

/-- Helper: invariant of the `select_child_for_playout` scan — the
accumulator always holds the earliest child attaining the maximum UCT
score among those scanned. -/
theorem scp_fold_inv (ef : ℝ) (parent c0 : Node) (P : List Node) :
    ∃ c l₁ l₂,
      P.foldl (Mcts_agent.scp_step ef parent)
          (c0, Mcts_agent.calculate_uct_score ef c0 parent)
        = (c, Mcts_agent.calculate_uct_score ef c parent) ∧
      c0 :: P = l₁ ++ c :: l₂ ∧
      (∀ d ∈ l₁, Mcts_agent.calculate_uct_score ef d parent
          < Mcts_agent.calculate_uct_score ef c parent) ∧
      (∀ d ∈ l₂, Mcts_agent.calculate_uct_score ef d parent
          ≤ Mcts_agent.calculate_uct_score ef c parent) := by
  induction P using List.reverseRecOn with
  | nil => exact ⟨c0, [], [], rfl, rfl, by simp, by simp⟩
  | append_singleton P x ih =>
    obtain ⟨c, l₁, l₂, heq, hsplit, h₁, h₂⟩ := ih
    have hstep : (P ++ [x]).foldl (Mcts_agent.scp_step ef parent)
        (c0, Mcts_agent.calculate_uct_score ef c0 parent)
        = Mcts_agent.scp_step ef parent
            (c, Mcts_agent.calculate_uct_score ef c parent) x := by
      rw [List.foldl_append, heq]
      simp
    by_cases hlt : Mcts_agent.calculate_uct_score ef c parent
        < Mcts_agent.calculate_uct_score ef x parent
    · refine ⟨x, l₁ ++ c :: l₂, [], ?_, ?_, ?_, by simp⟩
      · rw [hstep]
        simp [Mcts_agent.scp_step, hlt]
      · rw [← List.cons_append, hsplit]
      · intro d hd
        rcases List.mem_append.mp hd with hd | hd
        · exact lt_trans (h₁ d hd) hlt
        · rcases List.mem_cons.mp hd with hd | hd
          · subst hd; exact hlt
          · exact lt_of_le_of_lt (h₂ d hd) hlt
    · refine ⟨c, l₁, l₂ ++ [x], ?_, ?_, h₁, ?_⟩
      · rw [hstep]
        simp [Mcts_agent.scp_step, hlt]
      · rw [← List.cons_append, hsplit]
        simp
      · intro d hd
        rcases List.mem_append.mp hd with hd | hd
        · exact h₂ d hd
        · simp only [List.mem_singleton] at hd
          subst hd
          exact le_of_not_lt hlt

/-- Claim C5: the UCT score of an unvisited child is the sentinel maximum,
so the first unvisited child in stored order is selected whenever one
exists; visited children are scored by
`win_count/visit_count + exploration_factor·√(ln(parent.visit)/visit)`,
and on equal scores the earlier child in stored order is kept. -/
theorem select_child_for_playout_spec (ef : ℝ) (parent : Node)
    (children : List Node) :
    (∀ c : Node, c.visit_count = 0 →
      Mcts_agent.calculate_uct_score ef c parent = ⊤) ∧
    (∀ c : Node, 0 < c.visit_count →
      Mcts_agent.calculate_uct_score ef c parent
        = (((c.win_count : ℝ) / (c.visit_count : ℝ)
            + ef * Real.sqrt (Real.log (parent.visit_count : ℝ)
                / (c.visit_count : ℝ)) : ℝ) : WithTop ℝ)) ∧
    (∀ c : Node,
      Mcts_agent.select_child_for_playout ef parent children = some c →
      ∃ l₁ l₂, children = l₁ ++ c :: l₂ ∧
        (∀ d ∈ l₁, Mcts_agent.calculate_uct_score ef d parent
            < Mcts_agent.calculate_uct_score ef c parent) ∧
        (∀ d ∈ l₂, Mcts_agent.calculate_uct_score ef d parent
            ≤ Mcts_agent.calculate_uct_score ef c parent)) ∧
    (∀ (l₁ : List Node) (c : Node) (l₂ : List Node),
      children = l₁ ++ c :: l₂ → c.visit_count = 0 →
      (∀ d ∈ l₁, 0 < d.visit_count) →
      Mcts_agent.select_child_for_playout ef parent children = some c) := by
  have hscore0 : ∀ c : Node, c.visit_count = 0 →
      Mcts_agent.calculate_uct_score ef c parent = ⊤ := by
    intro c h
    simp [Mcts_agent.calculate_uct_score, h]
  have hscorePos : ∀ c : Node, 0 < c.visit_count →
      Mcts_agent.calculate_uct_score ef c parent
        = (((c.win_count : ℝ) / (c.visit_count : ℝ)
            + ef * Real.sqrt (Real.log (parent.visit_count : ℝ)
                / (c.visit_count : ℝ)) : ℝ) : WithTop ℝ) := by
    intro c h
    simp [Mcts_agent.calculate_uct_score, Nat.pos_iff_ne_zero.mp h]
  have hmax : ∀ c : Node,
      Mcts_agent.select_child_for_playout ef parent children = some c →
      ∃ l₁ l₂, children = l₁ ++ c :: l₂ ∧
        (∀ d ∈ l₁, Mcts_agent.calculate_uct_score ef d parent
            < Mcts_agent.calculate_uct_score ef c parent) ∧
        (∀ d ∈ l₂, Mcts_agent.calculate_uct_score ef d parent
            ≤ Mcts_agent.calculate_uct_score ef c parent) := by
    intro c hsel
    cases children with
    | nil => cases hsel
    | cons c0 rest =>
      obtain ⟨c2, l₁, l₂, heq, hsplit, h₁, h₂⟩ := scp_fold_inv ef parent c0 rest
      simp only [Mcts_agent.select_child_for_playout, heq, Option.some.injEq] at hsel
      subst hsel
      exact ⟨l₁, l₂, hsplit, h₁, h₂⟩
  refine ⟨hscore0, hscorePos, hmax, ?_⟩
  intro l₁ c l₂ hsplit hc h₁
  have hsome : ∃ c2, Mcts_agent.select_child_for_playout ef parent children = some c2 := by
    rw [hsplit]
    cases l₁ with
    | nil => exact ⟨_, rfl⟩
    | cons b t => exact ⟨_, rfl⟩
  obtain ⟨c2, hsel⟩ := hsome
  obtain ⟨l₁', l₂', hsplit', h₁', h₂'⟩ := hmax c2 hsel
  have hcases := two_splits (hsplit ▸ hsplit' : l₁ ++ c :: l₂ = l₁' ++ c2 :: l₂')
  rcases hcases with ⟨_, rfl, _⟩ | ⟨hmem1, hmem2⟩ | ⟨hmem1, hmem2⟩
  · exact hsel
  · -- the selected child would lie strictly before the first unvisited one
    have hv : 0 < c2.visit_count := h₁ c2 hmem1
    have : Mcts_agent.calculate_uct_score ef c parent
        ≤ Mcts_agent.calculate_uct_score ef c2 parent := h₂' c hmem2
    rw [hscore0 c hc, top_le_iff, hscorePos c2 hv] at this
    exact absurd this WithTop.coe_ne_top
  · -- the unvisited child would beat the selected one from an earlier slot
    have : Mcts_agent.calculate_uct_score ef c parent
        < Mcts_agent.calculate_uct_score ef c2 parent := h₁' c hmem1
    rw [hscore0 c hc] at this
    exact absurd this not_top_lt

/-- Witness for `select_child_for_playout_spec`: with two unvisited
children the first receives the sentinel score and is selected. -/
theorem select_child_for_playout_spec_witness :
    Mcts_agent.calculate_uct_score 1 (Node.mk 0 0 (0, 0) Cell_state.Blue none)
        (Node.mk 0 1 (-1, -1) Cell_state.Blue none) = ⊤ ∧
    Mcts_agent.select_child_for_playout 1
        (Node.mk 0 1 (-1, -1) Cell_state.Blue none)
        [Node.mk 0 0 (0, 0) Cell_state.Blue none,
         Node.mk 0 0 (1, 1) Cell_state.Blue none]
      = some (Node.mk 0 0 (0, 0) Cell_state.Blue none) :=
  ⟨(select_child_for_playout_spec 1
      (Node.mk 0 1 (-1, -1) Cell_state.Blue none) []).1 _ rfl,
   (select_child_for_playout_spec 1 (Node.mk 0 1 (-1, -1) Cell_state.Blue none)
      [Node.mk 0 0 (0, 0) Cell_state.Blue none,
       Node.mk 0 0 (1, 1) Cell_state.Blue none]).2.2.2
     [] (Node.mk 0 0 (0, 0) Cell_state.Blue none)
     [Node.mk 0 0 (1, 1) Cell_state.Blue none] rfl rfl (by simp)⟩

/-- Helper: a `filterMap` whose function always succeeds is a `map`. -/
theorem filterMap_eq_map_of_forall {α β : Type} (l : List α)
    (f : α → Option β) (g : α → β) (h : ∀ a ∈ l, f a = some (g a)) :
    l.filterMap f = l.map g := by
  induction l with
  | nil => rfl
  | cons a t ih =>
    rw [List.filterMap_cons, h a (List.mem_cons_self _ _), List.map_cons,
      ih fun x hx => h x (List.mem_cons_of_mem _ hx)]

/-- Helper: `flatMap` respects pointwise equality on the list. -/
theorem flatMap_congr_of_forall {α β : Type} (l : List α)
    (f g : α → List β) (h : ∀ a ∈ l, f a = g a) :
    l.flatMap f = l.flatMap g := by
  induction l with
  | nil => rfl
  | cons a t ih =>
    rw [List.flatMap_cons, List.flatMap_cons, h a (List.mem_cons_self _ _),
      ih fun x hx => h x (List.mem_cons_of_mem _ hx)]

/-- Helper: on an all-Empty grid every cell read yields `Empty`. -/
theorem getCell_all_empty (g : List (List Cell_state))
    (h : ∀ row ∈ g, ∀ c ∈ row, c = Cell_state.Empty) (x y : ℤ) :
    getCell g x y = Cell_state.Empty := by
  unfold getCell
  by_cases hx : x.toNat < g.length
  · rw [List.getD_eq_getElem g [] hx]
    by_cases hy : y.toNat < (g[x.toNat]).length
    · rw [List.getD_eq_getElem _ _ hy]
      exact h _ (List.getElem_mem hx) _ (List.getElem_mem hy)
    · exact List.getD_eq_default _ _ (le_of_not_lt hy)
  · rw [List.getD_eq_default _ _ (le_of_not_lt hx)]
    exact List.getD_eq_default _ _ (Nat.zero_le _)

/-- Claim C6: `expand_node` appends exactly one child per legal move, in
`get_valid_moves` order, each child carrying the expanded node's player
and a parent pointer back to the expanded node; and on an all-Empty
`N × N` board `get_valid_moves` is the row-major enumeration
`(0,0),(0,1),…,(N−1,N−1)`. -/
theorem expand_node_spec :
    (∀ (node : Node) (board : Board),
        (Mcts_agent.expand_node node board).length
          = board.get_valid_moves.length) ∧
    (∀ (node : Node) (board : Board) (i : ℕ),
        i < board.get_valid_moves.length →
        (Mcts_agent.expand_node node board).getD i
            (Node.mk 0 0 (0, 0) Cell_state.Empty none)
          = Node.new node.player (board.get_valid_moves.getD i (0, 0))
              (some node)) ∧
    (∀ b : Board, b.WF →
        (∀ row ∈ b.board, ∀ c ∈ row, c = Cell_state.Empty) →
        b.get_valid_moves
          = (List.range b.board_size.toNat).flatMap fun (r : ℕ) =>
              (List.range b.board_size.toNat).map fun (c : ℕ) =>
                ((r : ℤ), (c : ℤ))) := by
  refine ⟨?_, ?_, ?_⟩
  · intro node board
    simp [Mcts_agent.expand_node]
  · intro node board i h
    have h2 : i < (Mcts_agent.expand_node node board).length := by
      simpa [Mcts_agent.expand_node] using h
    rw [List.getD_eq_getElem _ _ h2, List.getD_eq_getElem _ _ h]
    simp [Mcts_agent.expand_node]
  · intro b hwf hempty
    unfold Board.get_valid_moves
    refine flatMap_congr_of_forall _ _ _ ?_
    intro r hr
    refine filterMap_eq_map_of_forall _ _ _ ?_
    intro c hc
    rw [if_pos]
    rw [List.mem_range] at hr hc
    have hsize : (0 : ℤ) < b.board_size := lt_of_lt_of_le (by norm_num) hwf.1
    simp only [Board.is_valid_move, Board.is_within_bounds, Bool.and_eq_true,
      decide_eq_true_eq]
    refine ⟨⟨⟨⟨Int.natCast_nonneg r, ?_⟩, Int.natCast_nonneg c⟩, ?_⟩, ?_⟩
    · exact Int.lt_toNat.mp hr
    · exact Int.lt_toNat.mp hc
    · exact getCell_all_empty b.board hempty _ _

/-- Witness for `expand_node_spec`: the empty 2×2 board enumerates its
four cells row-major, and the first child of an expansion of it carries
the expanding node's player and parent pointer. -/
theorem expand_node_spec_witness :
    (Board.mk 2 [[Cell_state.Empty, Cell_state.Empty],
        [Cell_state.Empty, Cell_state.Empty]]).get_valid_moves
      = (List.range 2).flatMap (fun (r : ℕ) =>
          (List.range 2).map fun (c : ℕ) => ((r : ℤ), (c : ℤ))) ∧
    (Mcts_agent.expand_node (Node.mk 0 0 (-1, -1) Cell_state.Blue none)
        (Board.mk 2 [[Cell_state.Empty, Cell_state.Empty],
          [Cell_state.Empty, Cell_state.Empty]])).getD 0
        (Node.mk 0 0 (0, 0) Cell_state.Empty none)
      = Node.new Cell_state.Blue
          ((Board.mk 2 [[Cell_state.Empty, Cell_state.Empty],
            [Cell_state.Empty, Cell_state.Empty]]).get_valid_moves.getD 0 (0, 0))
          (some (Node.mk 0 0 (-1, -1) Cell_state.Blue none)) :=
  ⟨expand_node_spec.2.2 _ (by decide) (by decide),
   expand_node_spec.2.1 (Node.mk 0 0 (-1, -1) Cell_state.Blue none) _ 0
     (by decide)⟩

/-- Helper: every element of `get_valid_moves` is a valid move. -/
theorem mem_get_valid_moves {b : Board} {mv : ℤ × ℤ}
    (h : mv ∈ b.get_valid_moves) : b.is_valid_move mv.1 mv.2 = true := by
  unfold Board.get_valid_moves at h
  rw [List.mem_flatMap] at h
  obtain ⟨row, _, hmem⟩ := h
  rw [List.mem_filterMap] at hmem
  obtain ⟨col, _, hcol⟩ := hmem
  by_cases hv : b.is_valid_move (row : ℤ) (col : ℤ) = true
  · rw [if_pos hv] at hcol
    cases hcol
    exact hv
  · rw [if_neg hv] at hcol
    cases hcol

/-- Helper: one-step unfolding of the playout loop. -/
theorem playout_loop_succ (oracle : ℕ → ℕ) (fuel : ℕ) (cur : Cell_state)
    (board : Board) (k : ℕ) :
    Mcts_agent.playout_loop oracle (fuel + 1) cur board k
      = if board.check_winner = Cell_state.Empty then
          (if board.get_valid_moves.length = 0 then none
           else
             let mv := board.get_valid_moves.getD
               (oracle k % board.get_valid_moves.length) (0, 0)
             let r := board.make_move mv.1 mv.2 (Mcts_agent.other_player cur)
             match r.2 with
             | some _ => none
             | none =>
               if r.1.check_winner = Cell_state.Empty then
                 Mcts_agent.playout_loop oracle fuel
                   (Mcts_agent.other_player cur) r.1 (k + 1)
               else some (Mcts_agent.other_player cur))
        else some cur := rfl

/-- Claim C7: `simulate_random_playout` first applies the node's move for
the node's player to its own board copy; then the loop returns the
current side as soon as `check_winner` is decided, and otherwise switches
the current side, picks the element of `get_valid_moves` selected by the
random draw (modelled by the oracle), and applies it for the new current
side. -/
theorem simulate_random_playout_spec :
    (∀ (oracle : ℕ → ℕ) (node : Node) (board : Board),
      board.is_valid_move node.move.1 node.move.2 = true →
      Mcts_agent.simulate_random_playout oracle node board
        = Mcts_agent.playout_loop oracle
            (countCells Cell_state.Empty
              (setCell board.board node.move.1 node.move.2 node.player) + 1)
            node.player
            { board with
              board := setCell board.board node.move.1 node.move.2 node.player }
            0) ∧
    (∀ (oracle : ℕ → ℕ) (fuel : ℕ) (cur : Cell_state) (board : Board) (k : ℕ),
      board.check_winner ≠ Cell_state.Empty →
      Mcts_agent.playout_loop oracle (fuel + 1) cur board k = some cur) ∧
    (∀ (oracle : ℕ → ℕ) (fuel : ℕ) (cur : Cell_state) (board : Board) (k : ℕ),
      board.check_winner = Cell_state.Empty →
      board.get_valid_moves ≠ [] →
      1 ≤ fuel →
      Mcts_agent.playout_loop oracle (fuel + 1) cur board k
        = Mcts_agent.playout_loop oracle fuel (Mcts_agent.other_player cur)
            (board.make_move
              (board.get_valid_moves.getD
                (oracle k % board.get_valid_moves.length) (0, 0)).1
              (board.get_valid_moves.getD
                (oracle k % board.get_valid_moves.length) (0, 0)).2
              (Mcts_agent.other_player cur)).1
            (k + 1)) := by
  refine ⟨?_, ?_, ?_⟩
  · intro oracle node board hv
    unfold Mcts_agent.simulate_random_playout
    simp only [Board.make_move, hv, if_pos]
  · intro oracle fuel cur board k h
    rw [playout_loop_succ, if_neg h]
  · intro oracle fuel cur board k hwin hmv hfuel
    have hlen : ¬ board.get_valid_moves.length = 0 := by
      simpa [List.length_eq_zero] using hmv
    have hidx : oracle k % board.get_valid_moves.length
        < board.get_valid_moves.length :=
      Nat.mod_lt _ (Nat.pos_of_ne_zero hlen)
    have hmem : board.get_valid_moves.getD
        (oracle k % board.get_valid_moves.length) (0, 0)
        ∈ board.get_valid_moves := by
      rw [List.getD_eq_getElem _ _ hidx]
      exact List.getElem_mem hidx
    have hvalid := mem_get_valid_moves hmem
    have hok : (board.make_move
        (board.get_valid_moves.getD
          (oracle k % board.get_valid_moves.length) (0, 0)).1
        (board.get_valid_moves.getD
          (oracle k % board.get_valid_moves.length) (0, 0)).2
        (Mcts_agent.other_player cur)).2 = none := by
      unfold Board.make_move
      rw [if_pos hvalid]
    rw [playout_loop_succ, if_pos hwin, if_neg hlen]
    simp only [hok]
    obtain ⟨f, rfl⟩ : ∃ f, fuel = f + 1 :=
      ⟨fuel - 1, (Nat.succ_pred_eq_of_pos hfuel).symm⟩
    by_cases hw2 : (board.make_move
        (board.get_valid_moves.getD
          (oracle k % board.get_valid_moves.length) (0, 0)).1
        (board.get_valid_moves.getD
          (oracle k % board.get_valid_moves.length) (0, 0)).2
        (Mcts_agent.other_player cur)).1.check_winner = Cell_state.Empty
    · rw [if_pos hw2]
    · rw [if_neg hw2, playout_loop_succ, if_neg hw2]

/-- Witness for `simulate_random_playout_spec` at concrete boards. -/
theorem simulate_random_playout_spec_witness :
    Mcts_agent.simulate_random_playout (fun _ => 0)
        (Node.mk 0 0 (0, 0) Cell_state.Blue none)
        (Board.mk 2 [[Cell_state.Empty, Cell_state.Empty],
          [Cell_state.Empty, Cell_state.Empty]])
      = Mcts_agent.playout_loop (fun _ => 0)
          (countCells Cell_state.Empty
            (setCell [[Cell_state.Empty, Cell_state.Empty],
              [Cell_state.Empty, Cell_state.Empty]] 0 0 Cell_state.Blue) + 1)
          Cell_state.Blue
          (Board.mk 2 (setCell [[Cell_state.Empty, Cell_state.Empty],
            [Cell_state.Empty, Cell_state.Empty]] 0 0 Cell_state.Blue)) 0 ∧
    Mcts_agent.playout_loop (fun _ => 0) 5 Cell_state.Red
        (Board.mk 2 [[Cell_state.Blue, Cell_state.Empty],
          [Cell_state.Blue, Cell_state.Empty]]) 0
      = some Cell_state.Red :=
  ⟨simulate_random_playout_spec.1 (fun _ => 0)
      (Node.mk 0 0 (0, 0) Cell_state.Blue none) _ (by decide),
   simulate_random_playout_spec.2.1 (fun _ => 0) 4 Cell_state.Red
     (Board.mk 2 [[Cell_state.Blue, Cell_state.Empty],
       [Cell_state.Blue, Cell_state.Empty]]) 0 (by decide)⟩

/-- Helper: `getD` after `set` at a different index. -/
theorem getD_set_ne {α : Type} (l : List α) (d : α) {i j : ℕ} (a : α)
    (h : i ≠ j) : (l.set i a).getD j d = l.getD j d := by
  by_cases hj : j < l.length
  · rw [List.getD_eq_getElem _ _ (by simpa using hj),
      List.getD_eq_getElem _ _ hj, List.getElem_set, if_neg h]
  · rw [List.getD_eq_default _ _ (by simpa using le_of_not_lt hj),
      List.getD_eq_default _ _ (le_of_not_lt hj)]

/-- Helper: `getD` after `set` at the same (in-range) index. -/
theorem getD_set_self {α : Type} (l : List α) (d : α) {i : ℕ} (a : α)
    (h : i < l.length) : (l.set i a).getD i d = a := by
  rw [List.getD_eq_getElem _ _ (by simpa using h), List.getElem_set, if_pos rfl]

/-- Helper: reading a different cell after `setCell` is unchanged. -/
theorem getCell_setCell_ne {g : List (List Cell_state)} {x y x' y' : ℤ}
    (v : Cell_state) (h : x.toNat ≠ x'.toNat ∨ y.toNat ≠ y'.toNat) :
    getCell (setCell g x y v) x' y' = getCell g x' y' := by
  unfold getCell setCell
  rcases h with h | h
  · rw [getD_set_ne _ _ _ h]
  · by_cases hx : x.toNat = x'.toNat
    · rw [hx]
      by_cases hlen : x'.toNat < g.length
      · rw [getD_set_self _ _ _ hlen, getD_set_ne _ _ _ h]
      · rw [List.set_eq_of_length_le (le_of_not_lt hlen)]
    · rw [getD_set_ne _ _ _ hx]

/-- Helper: reading the freshly set (in-range) cell gives the new value. -/
theorem getCell_setCell_self {g : List (List Cell_state)} {x y : ℤ}
    (v : Cell_state) (hx : x.toNat < g.length)
    (hy : y.toNat < (g.getD x.toNat []).length) :
    getCell (setCell g x y v) x y = v := by
  unfold getCell setCell
  rw [getD_set_self _ _ _ hx, getD_set_self _ _ _ hy]

/-- Helper: a non-Empty read certifies that the indices are in range (the
out-of-range default is `Empty`). -/
theorem getCell_ne_empty_bounds {g : List (List Cell_state)} {x y : ℤ}
    (h : getCell g x y ≠ Cell_state.Empty) :
    x.toNat < g.length ∧ y.toNat < (g.getD x.toNat []).length := by
  unfold getCell at h
  constructor
  · by_contra hx
    rw [List.getD_eq_default _ _ (le_of_not_lt hx), List.getD_nil] at h
    exact h rfl
  · by_contra hy
    rw [List.getD_eq_default _ _ (le_of_not_lt hy)] at h
    exact h rfl

/-- Helper: replacing one row shifts the cell count by the row counts. -/
theorem countCells_set_row (p : Cell_state) :
    ∀ (g : List (List Cell_state)) (i : ℕ) (r : List Cell_state),
      i < g.length →
      countCells p (g.set i r) + ((g.getD i []).countP fun c => decide (c = p))
        = countCells p g + (r.countP fun c => decide (c = p))
  | [], i, r, h => by simp at h
  | a :: t, 0, r, _ => by
    simp only [List.set_cons_zero, countCells, List.map_cons, List.sum_cons,
      List.getD_cons_zero]
    omega
  | a :: t, i + 1, r, h => by
    have ih := countCells_set_row p t i r (by simpa using Nat.lt_of_succ_lt_succ h)
    simp only [List.set_cons_succ, countCells, List.map_cons, List.sum_cons,
      List.getD_cons_succ] at ih ⊢
    omega

/-- Helper: overwriting a `p`-cell with a non-`p` value drops the `p`-count
by exactly one. -/
theorem countCells_setCell {g : List (List Cell_state)} {x y : ℤ}
    {p w : Cell_state} (hx : x.toNat < g.length)
    (hy : y.toNat < (g.getD x.toNat []).length)
    (hread : getCell g x y = p) (hw : w ≠ p) :
    countCells p (setCell g x y w) + 1 = countCells p g := by
  have hrow := countCells_set_row p g x.toNat
    ((g.getD x.toNat []).set y.toNat w) hx
  have hcount := List.countP_set (fun c => decide (c = p)) (g.getD x.toNat [])
    y.toNat w hy
  have hcell : (g.getD x.toNat [])[y.toNat] = p := by
    rw [← List.getD_eq_getElem _ Cell_state.Empty hy]
    exact hread
  rw [hcell] at hcount
  simp only [decide_eq_true_eq, hw, eq_self_iff_true, if_true, if_false] at hcount
  have hpos : 0 < (g.getD x.toNat []).countP fun c => decide (c = p) :=
    List.countP_pos_iff.mpr ⟨p, by rw [← hcell]; exact List.getElem_mem hy, by simp⟩
  unfold setCell
  omega

/-- Helper: the cell count is at most the total number of cells. -/
theorem countCells_le (p : Cell_state) :
    ∀ g : List (List Cell_state), countCells p g ≤ (g.map List.length).sum
  | [] => le_refl _
  | a :: t => by
    simp only [countCells, List.map_cons, List.sum_cons]
    exact Nat.add_le_add (List.countP_le_length _) (countCells_le p t)

/-- Helper: total cell count of a grid whose rows all have length `n`. -/
theorem sum_map_length_of_rows {n : ℕ} :
    ∀ g : List (List Cell_state), (∀ row ∈ g, row.length = n) →
      (g.map List.length).sum = g.length * n
  | [], _ => by simp
  | a :: t, h => by
    simp only [List.map_cons, List.sum_cons, List.length_cons,
      h a (List.mem_cons_self _ _),
      sum_map_length_of_rows t fun r hr => h r (List.mem_cons_of_mem _ hr)]
    ring

/-- Helper: on a well-formed board the cell count is below `size² + 1`. -/
theorem countCells_lt_fuel (b : Board) (hwf : b.WF) (p : Cell_state) :
    countCells p b.board < b.board_size.toNat * b.board_size.toNat + 1 := by
  have hsum := sum_map_length_of_rows b.board hwf.2.2
  have := countCells_le p b.board
  rw [hsum, hwf.2.1] at this
  omega

/-- Helper: unfolding of the bounds check. -/
theorem is_within_bounds_iff (b : Board) (x y : ℤ) :
    b.is_within_bounds x y = true ↔
      0 ≤ x ∧ x < b.board_size ∧ 0 ≤ y ∧ y < b.board_size := by
  simp only [Board.is_within_bounds, Bool.and_eq_true, decide_eq_true_eq]
  tauto

/-- Helper: stepping by a neighbour offset is an adjacency. -/
theorem adjacent_add (q d : ℤ × ℤ) (hd : d ∈ neighbour_offsets) :
    Adjacent q (q.1 + d.1, q.2 + d.2) := by
  unfold Adjacent
  simpa using hd

/-- Helper: distinct positions with nonnegative coordinates have distinct
`toNat` images in at least one coordinate. -/
theorem pos_toNat_ne {q r : ℤ × ℤ} (hq1 : 0 ≤ q.1) (hq2 : 0 ≤ q.2)
    (hr1 : 0 ≤ r.1) (hr2 : 0 ≤ r.2) (hne : q ≠ r) :
    q.1.toNat ≠ r.1.toNat ∨ q.2.toNat ≠ r.2.toNat := by
  by_contra hcon
  push_neg at hcon
  obtain ⟨h1, h2⟩ := hcon
  apply hne
  have e1 : q.1 = r.1 := by
    rw [← Int.toNat_of_nonneg hq1, ← Int.toNat_of_nonneg hr1, h1]
  have e2 : q.2 = r.2 := by
    rw [← Int.toNat_of_nonneg hq2, ← Int.toNat_of_nonneg hr2, h2]
  exact Prod.ext e1 e2

/-- Helper: a cell that reads `p ≠ Empty` after marking some cell Empty
already read `p` before the marking. -/
theorem getCell_unmark {g : List (List Cell_state)} {ux uy x y : ℤ}
    {p : Cell_state} (hp : p ≠ Cell_state.Empty)
    (h : getCell (setCell g ux uy Cell_state.Empty) x y = p) :
    getCell g x y = p := by
  by_cases hxy : ux.toNat ≠ x.toNat ∨ uy.toNat ≠ y.toNat
  · rwa [getCell_setCell_ne _ hxy] at h
  · push_neg at hxy
    obtain ⟨hx, hy⟩ := hxy
    exfalso
    apply hp
    rw [← h]
    unfold getCell setCell
    rw [← hx, ← hy]
    by_cases hlen : ux.toNat < g.length
    · rw [getD_set_self _ _ _ hlen]
      by_cases hrow : uy.toNat < (g.getD ux.toNat []).length
      · rw [getD_set_self _ _ _ hrow]
      · rw [List.set_eq_of_length_le (le_of_not_lt hrow),
          List.getD_eq_default _ _ (le_of_not_lt hrow)]
    · rw [List.set_eq_of_length_le (le_of_not_lt hlen),
        List.getD_eq_default _ _ (le_of_not_lt hlen), List.getD_nil]

/-- Helper: split a list at the last occurrence of a member. -/
theorem exists_last_split {α : Type} [DecidableEq α] {a : α} :
    ∀ {l : List α}, a ∈ l → ∃ s t, l = s ++ a :: t ∧ a ∉ t := by
  intro l
  induction l with
  | nil => intro h; cases h
  | cons b t ih =>
    intro h
    by_cases hat : a ∈ t
    · obtain ⟨s1, t1, heq, hnot⟩ := ih hat
      exact ⟨b :: s1, t1, by rw [List.cons_append, heq], hnot⟩
    · have hab : a = b := by
        rcases List.mem_cons.mp h with h | h
        · exact h
        · exact absurd h hat
      exact ⟨[], t, by rw [hab]; rfl, hat⟩

/-- Helper: soundness of `depth_first_search`: a successful search yields
a path from the start to the destination whose cells after the start are
in-bounds `p`-cells of the snapshot. -/
theorem dfs_sound (b : Board) (p : Cell_state) (dest : ℤ × ℤ)
    (hp : p ≠ Cell_state.Empty) :
    ∀ (fuel : ℕ) (start : ℤ × ℤ) (snap : List (List Cell_state)),
      b.depth_first_search p dest fuel start snap = true →
      ∃ l : List (ℤ × ℤ), List.Chain' Adjacent (start :: l) ∧
        (start :: l).getLast? = some dest ∧
        ∀ q ∈ l, b.is_within_bounds q.1 q.2 = true ∧ getCell snap q.1 q.2 = p
  | 0, start, snap => by intro h; cases h
  | fuel + 1, start, snap => by
    intro h
    rw [Board.depth_first_search] at h
    by_cases hdest : start = dest
    · exact ⟨[], List.chain'_singleton _, by simp [hdest], by simp⟩
    · rw [if_neg hdest] at h
      simp only [List.any_eq_true, Bool.and_eq_true, decide_eq_true_eq] at h
      obtain ⟨d, hd, ⟨hbnd, hcellnew⟩, hrec⟩ := h
      obtain ⟨l, hchain, hlast, hcells⟩ := dfs_sound b p dest hp fuel _ _ hrec
      refine ⟨(start.1 + d.1, start.2 + d.2) :: l, ?_, ?_, ?_⟩
      · exact List.chain'_cons.mpr ⟨adjacent_add start d hd, hchain⟩
      · simpa using hlast
      · intro q hq
        rcases List.mem_cons.mp hq with rfl | hq
        · exact ⟨hbnd, getCell_unmark hp hcellnew⟩
        · obtain ⟨hqb, hqc⟩ := hcells q hq
          exact ⟨hqb, getCell_unmark hp hqc⟩

/-- Helper: completeness of `depth_first_search`: any path of in-bounds
`p`-cells from the start to the destination makes the search succeed,
provided the fuel exceeds the number of `p`-cells of the snapshot. -/
theorem dfs_complete (b : Board) (p : Cell_state) (dest : ℤ × ℤ)
    (hp : p ≠ Cell_state.Empty) :
    ∀ (cnt fuel : ℕ) (start : ℤ × ℤ) (snap : List (List Cell_state))
      (l : List (ℤ × ℤ)),
      countCells p snap ≤ cnt → cnt < fuel →
      b.is_within_bounds start.1 start.2 = true →
      getCell snap start.1 start.2 = p →
      List.Chain' Adjacent (start :: l) →
      (start :: l).getLast? = some dest →
      (∀ q ∈ l, b.is_within_bounds q.1 q.2 = true ∧ getCell snap q.1 q.2 = p) →
      b.depth_first_search p dest fuel start snap = true
  | 0, fuel, start, snap, l => by
    intro hcnt _ _ hcell _ _ _
    exfalso
    obtain ⟨hx, hy⟩ := getCell_ne_empty_bounds (hcell ▸ hp)
    have hpos : 0 < countCells p snap := by
      have hone := countCells_setCell hx hy hcell (Ne.symm hp)
      omega
    omega
  | cnt + 1, fuel, start, snap, l => by
    intro hcnt hfuel hbnd hcell hchain hlast hcells
    obtain ⟨fuel2, rfl⟩ : ∃ f, fuel = f + 1 :=
      ⟨fuel - 1, by omega⟩
    rw [Board.depth_first_search]
    by_cases hdest : start = dest
    · rw [if_pos hdest]
    · rw [if_neg hdest]
      obtain ⟨s, t, hsplit, hnot⟩ :=
        exists_last_split (List.mem_cons_self start l)
      cases t with
      | nil =>
        exfalso
        rw [hsplit, List.getLast?_concat] at hlast
        exact hdest (Option.some.inj hlast)
      | cons a t2 =>
        have hchain2 : List.Chain' Adjacent (start :: a :: t2) := by
          have := hchain
          rw [hsplit] at this
          exact (List.chain'_append.mp this).2.1
        have hlast2 : (a :: t2).getLast? = some dest := by
          rw [hsplit, List.getLast?_append] at hlast
          have hne : (start :: a :: t2).getLast? = some dest := by
            cases hget : (start :: a :: t2).getLast? with
            | none => simp at hget
            | some z =>
              rw [hget] at hlast
              simp only [Option.or_some] at hlast
              exact hlast
          simpa using hne
        have hmemt : ∀ q ∈ a :: t2, q ∈ l ∧ q ≠ start := by
          intro q hq
          constructor
          · have : q ∈ s ++ start :: a :: t2 :=
              List.mem_append_right _ (List.mem_cons_of_mem _ hq)
            rw [← hsplit] at this
            rcases List.mem_cons.mp this with rfl | h
            · exact absurd hq hnot
            · exact h
          · intro hqs
            exact hnot (hqs ▸ hq)
        obtain ⟨hx, hy⟩ := getCell_ne_empty_bounds (hcell ▸ hp)
        have hdrop := countCells_setCell hx hy hcell (Ne.symm hp)
        have hbnd0 := (is_within_bounds_iff b start.1 start.2).mp hbnd
        have hsnap1 : ∀ q, q ∈ l → q ≠ start →
            getCell (setCell snap start.1 start.2 Cell_state.Empty) q.1 q.2
              = p := by
          intro q hq hqs
          obtain ⟨hqb, hqc⟩ := hcells q hq
          have hqb2 := (is_within_bounds_iff b q.1 q.2).mp hqb
          rw [getCell_setCell_ne]
          · exact hqc
          · exact pos_toNat_ne hbnd0.1 hbnd0.2.2.1 hqb2.1 hqb2.2.2.1
              (Ne.symm hqs)
        have hamem := hmemt a (List.mem_cons_self _ _)
        have harec : b.depth_first_search p dest fuel2 a
            (setCell snap start.1 start.2 Cell_state.Empty) = true := by
          apply dfs_complete b p dest hp cnt fuel2 a _ t2
          · omega
          · omega
          · exact (hcells a hamem.1).1
          · exact hsnap1 a hamem.1 hamem.2
          · exact (List.chain'_cons.mp hchain2).2
          · simpa using hlast2
          · intro q hq
            have hqm := hmemt q (List.mem_cons_of_mem _ hq)
            exact ⟨(hcells q hqm.1).1, hsnap1 q hqm.1 hqm.2⟩
        have hadj : Adjacent start a := (List.chain'_cons.mp hchain2).1
        simp only [List.any_eq_true, Bool.and_eq_true, decide_eq_true_eq]
        refine ⟨(a.1 - start.1, a.2 - start.2), hadj, ?_⟩
        have hrepack : (start.1 + (a.1 - start.1), start.2 + (a.2 - start.2))
            = a := by
          apply Prod.ext <;> simp
        rw [show start.1 + (a.1 - start.1) = a.1 from by ring,
          show start.2 + (a.2 - start.2) = a.2 from by ring]
        exact ⟨⟨(hcells a hamem.1).1, hsnap1 a hamem.1 hamem.2⟩, harec⟩

/-- Helper: the Blue scan of `check_winner` succeeds exactly when a Blue
path connects row 0 to row size−1. -/
theorem blue_scan_iff (b : Board) (hwf : b.WF) :
    ((List.range b.board_size.toNat).any fun (t : ℕ) =>
      decide (getCell b.board 0 (t : ℤ) = Cell_state.Blue) &&
      (List.range b.board_size.toNat).any fun (bi : ℕ) =>
        decide (getCell b.board (b.board_size - 1) (bi : ℤ) = Cell_state.Blue) &&
        b.depth_first_search Cell_state.Blue (b.board_size - 1, (bi : ℤ))
          (b.board_size.toNat * b.board_size.toNat + 1) (0, (t : ℤ)) b.board)
      = true
    ↔ BlueConnects b := by
  have hsize : 0 < b.board_size := lt_of_lt_of_le (by norm_num) hwf.1
  simp only [List.any_eq_true, List.mem_range, Bool.and_eq_true,
    decide_eq_true_eq]
  constructor
  · rintro ⟨t, ht, hcell0, bi, hbi, hcellD, hdfs⟩
    obtain ⟨l, hchain, hlast, hcells⟩ :=
      dfs_sound b Cell_state.Blue (b.board_size - 1, (bi : ℤ)) (by decide)
        _ _ _ hdfs
    refine ⟨(0, (t : ℤ)) :: l, (0, (t : ℤ)), (b.board_size - 1, (bi : ℤ)),
      ⟨by simp, hchain, ?_⟩, rfl, rfl, hlast, rfl⟩
    intro q hq
    rcases List.mem_cons.mp hq with rfl | hq
    · refine ⟨(is_within_bounds_iff b _ _).mpr
        ⟨le_refl 0, hsize, Int.natCast_nonneg t, Int.lt_toNat.mp ht⟩, hcell0⟩
    · exact hcells q hq
  · rintro ⟨l, s, tgt, ⟨hne, hchain, hcells⟩, hhead, hs1, hlastl, ht1⟩
    cases l with
    | nil => cases hhead
    | cons a l2 =>
      have has : a = s := by
        simpa using hhead
      subst has
      obtain ⟨hsb, hsc⟩ := hcells a (List.mem_cons_self _ _)
      have hsb2 := (is_within_bounds_iff b a.1 a.2).mp hsb
      have htgt : tgt ∈ a :: l2 := by
        obtain ⟨hne2, heq⟩ :=
          List.mem_getLast?_eq_getLast (Option.mem_def.mpr hlastl)
        rw [heq]
        exact List.getLast_mem hne2
      obtain ⟨htb, htc⟩ := hcells tgt htgt
      have htb2 := (is_within_bounds_iff b tgt.1 tgt.2).mp htb
      refine ⟨a.2.toNat, ?_, ?_, tgt.2.toNat, ?_, ?_, ?_⟩
      · exact Int.lt_toNat.mpr (by rw [Int.toNat_of_nonneg hsb2.2.2.1]; exact hsb2.2.2.2)
      · have : ((a.2.toNat : ℤ)) = a.2 := Int.toNat_of_nonneg hsb2.2.2.1
        rw [this]
        rw [← hs1]
        exact hsc
      · exact Int.lt_toNat.mpr (by rw [Int.toNat_of_nonneg htb2.2.2.1]; exact htb2.2.2.2)
      · have : ((tgt.2.toNat : ℤ)) = tgt.2 := Int.toNat_of_nonneg htb2.2.2.1
        rw [this]
        rw [← ht1]
        exact htc
      · have hc1 : ((a.2.toNat : ℤ)) = a.2 := Int.toNat_of_nonneg hsb2.2.2.1
        have hc2 : ((tgt.2.toNat : ℤ)) = tgt.2 := Int.toNat_of_nonneg htb2.2.2.1
        have hstart : ((0 : ℤ), (a.2.toNat : ℤ)) = a := by
          rw [hc1]
          apply Prod.ext
          · exact hs1.symm
          · rfl
        have hdest : (b.board_size - 1, ((tgt.2.toNat : ℤ))) = tgt := by
          rw [hc2]
          apply Prod.ext
          · exact ht1.symm
          · rfl
        rw [hstart, hdest]
        apply dfs_complete b Cell_state.Blue tgt (by decide)
          (countCells Cell_state.Blue b.board) _ a b.board l2
          (le_refl _) (countCells_lt_fuel b hwf _) hsb hsc hchain hlastl
        intro q hq
        exact hcells q (List.mem_cons_of_mem _ hq)

/-- Helper: the Red scan of `check_winner` succeeds exactly when a Red
path connects column 0 to column size−1. -/
theorem red_scan_iff (b : Board) (hwf : b.WF) :
    ((List.range b.board_size.toNat).any fun (l : ℕ) =>
      decide (getCell b.board (l : ℤ) 0 = Cell_state.Red) &&
      (List.range b.board_size.toNat).any fun (r : ℕ) =>
        decide (getCell b.board (r : ℤ) (b.board_size - 1) = Cell_state.Red) &&
        b.depth_first_search Cell_state.Red ((r : ℤ), b.board_size - 1)
          (b.board_size.toNat * b.board_size.toNat + 1) ((l : ℤ), 0) b.board)
      = true
    ↔ RedConnects b := by
  have hsize : 0 < b.board_size := lt_of_lt_of_le (by norm_num) hwf.1
  simp only [List.any_eq_true, List.mem_range, Bool.and_eq_true,
    decide_eq_true_eq]
  constructor
  · rintro ⟨t, ht, hcell0, bi, hbi, hcellD, hdfs⟩
    obtain ⟨l, hchain, hlast, hcells⟩ :=
      dfs_sound b Cell_state.Red ((bi : ℤ), b.board_size - 1) (by decide)
        _ _ _ hdfs
    refine ⟨((t : ℤ), 0) :: l, ((t : ℤ), 0), ((bi : ℤ), b.board_size - 1),
      ⟨by simp, hchain, ?_⟩, rfl, rfl, hlast, rfl⟩
    intro q hq
    rcases List.mem_cons.mp hq with rfl | hq
    · refine ⟨(is_within_bounds_iff b _ _).mpr
        ⟨Int.natCast_nonneg t, Int.lt_toNat.mp ht, le_refl 0, hsize⟩, hcell0⟩
    · exact hcells q hq
  · rintro ⟨l, s, tgt, ⟨hne, hchain, hcells⟩, hhead, hs2, hlastl, ht2⟩
    cases l with
    | nil => cases hhead
    | cons a l2 =>
      have has : a = s := by
        simpa using hhead
      subst has
      obtain ⟨hsb, hsc⟩ := hcells a (List.mem_cons_self _ _)
      have hsb2 := (is_within_bounds_iff b a.1 a.2).mp hsb
      have htgt : tgt ∈ a :: l2 := by
        obtain ⟨hne2, heq⟩ :=
          List.mem_getLast?_eq_getLast (Option.mem_def.mpr hlastl)
        rw [heq]
        exact List.getLast_mem hne2
      obtain ⟨htb, htc⟩ := hcells tgt htgt
      have htb2 := (is_within_bounds_iff b tgt.1 tgt.2).mp htb
      refine ⟨a.1.toNat, ?_, ?_, tgt.1.toNat, ?_, ?_, ?_⟩
      · exact Int.lt_toNat.mpr (by rw [Int.toNat_of_nonneg hsb2.1]; exact hsb2.2.1)
      · have hcast : ((a.1.toNat : ℤ)) = a.1 := Int.toNat_of_nonneg hsb2.1
        rw [hcast, ← hs2]
        exact hsc
      · exact Int.lt_toNat.mpr (by rw [Int.toNat_of_nonneg htb2.1]; exact htb2.2.1)
      · have hcast : ((tgt.1.toNat : ℤ)) = tgt.1 := Int.toNat_of_nonneg htb2.1
        rw [hcast, ← ht2]
        exact htc
      · have hc1 : ((a.1.toNat : ℤ)) = a.1 := Int.toNat_of_nonneg hsb2.1
        have hc2 : ((tgt.1.toNat : ℤ)) = tgt.1 := Int.toNat_of_nonneg htb2.1
        have hstart : (((a.1.toNat : ℤ)), (0 : ℤ)) = a := by
          rw [hc1]
          apply Prod.ext
          · rfl
          · exact hs2.symm
        have hdest : (((tgt.1.toNat : ℤ)), b.board_size - 1) = tgt := by
          rw [hc2]
          apply Prod.ext
          · rfl
          · exact ht2.symm
        rw [hstart, hdest]
        apply dfs_complete b Cell_state.Red tgt (by decide)
          (countCells Cell_state.Red b.board) _ a b.board l2
          (le_refl _) (countCells_lt_fuel b hwf _) hsb hsc hchain hlastl
        intro q hq
        exact hcells q (List.mem_cons_of_mem _ hq)

/-- Helper: the full characterization of `check_winner` by path
existence. -/
theorem check_winner_iff (b : Board) (hwf : b.WF) :
    (b.check_winner = Cell_state.Blue ↔ BlueConnects b) ∧
    (b.check_winner = Cell_state.Red ↔ ¬ BlueConnects b ∧ RedConnects b) ∧
    (b.check_winner = Cell_state.Empty ↔ ¬ BlueConnects b ∧ ¬ RedConnects b) ∧
    (BlueConnects b → RedConnects b → b.check_winner = Cell_state.Blue) := by
  have hB := blue_scan_iff b hwf
  have hR := red_scan_iff b hwf
  have hcw : b.check_winner =
      (if ((List.range b.board_size.toNat).any fun (t : ℕ) =>
          decide (getCell b.board 0 (t : ℤ) = Cell_state.Blue) &&
          (List.range b.board_size.toNat).any fun (bi : ℕ) =>
            decide (getCell b.board (b.board_size - 1) (bi : ℤ)
              = Cell_state.Blue) &&
            b.depth_first_search Cell_state.Blue (b.board_size - 1, (bi : ℤ))
              (b.board_size.toNat * b.board_size.toNat + 1) (0, (t : ℤ))
              b.board) = true
       then Cell_state.Blue
       else if ((List.range b.board_size.toNat).any fun (l : ℕ) =>
          decide (getCell b.board (l : ℤ) 0 = Cell_state.Red) &&
          (List.range b.board_size.toNat).any fun (r : ℕ) =>
            decide (getCell b.board (r : ℤ) (b.board_size - 1)
              = Cell_state.Red) &&
            b.depth_first_search Cell_state.Red ((r : ℤ), b.board_size - 1)
              (b.board_size.toNat * b.board_size.toNat + 1) ((l : ℤ), 0)
              b.board) = true
       then Cell_state.Red
       else Cell_state.Empty) := rfl
  rw [hcw]
  by_cases hBlue : BlueConnects b <;> by_cases hRed : RedConnects b <;>
    simp [hB, hR, hBlue, hRed]

/-- Claim C1: `check_winner` returns Blue exactly when a Blue path under
the 6-offset adjacency connects row 0 to row size−1; Red exactly when no
such Blue path exists but a Red path connects column 0 to column size−1;
Empty exactly when neither exists; and when both exist, Blue is reported
(the Blue scan runs first). -/
theorem check_winner_spec (b : Board) (hwf : b.WF) :
    (b.check_winner = Cell_state.Blue ↔ BlueConnects b) ∧
    (b.check_winner = Cell_state.Red ↔ ¬ BlueConnects b ∧ RedConnects b) ∧
    (b.check_winner = Cell_state.Empty ↔ ¬ BlueConnects b ∧ ¬ RedConnects b) ∧
    (BlueConnects b → RedConnects b → b.check_winner = Cell_state.Blue) :=
  check_winner_iff b hwf

/-- Witness for `check_winner_spec`: a vertical Blue pair on the 2×2 board
wins for Blue, so a Blue row-0-to-row-1 path exists. -/
theorem check_winner_spec_witness :
    (Board.mk 2 [[Cell_state.Blue, Cell_state.Empty],
      [Cell_state.Blue, Cell_state.Empty]]).WF ∧
    BlueConnects (Board.mk 2 [[Cell_state.Blue, Cell_state.Empty],
      [Cell_state.Blue, Cell_state.Empty]]) :=
  ⟨by decide,
   (check_winner_spec (Board.mk 2 [[Cell_state.Blue, Cell_state.Empty],
      [Cell_state.Blue, Cell_state.Empty]]) (by decide)).1.mp (by decide)⟩

/-- Helper: adjacency in coordinate form. -/
theorem adjacent_iff {q r : ℤ × ℤ} : Adjacent q r ↔
    (r.1 = q.1 - 1 ∧ r.2 = q.2) ∨ (r.1 = q.1 - 1 ∧ r.2 = q.2 + 1) ∨
    (r.1 = q.1 ∧ r.2 = q.2 + 1) ∨ (r.1 = q.1 + 1 ∧ r.2 = q.2) ∨
    (r.1 = q.1 + 1 ∧ r.2 = q.2 - 1) ∨ (r.1 = q.1 ∧ r.2 = q.2 - 1) := by
  simp only [Adjacent, neighbour_offsets, List.mem_cons, List.mem_singleton,
    List.not_mem_nil, or_false, Prod.mk.injEq]
  omega

/-- Helper: adjacency is symmetric. -/
theorem adjacent_symm {q r : ℤ × ℤ} (h : Adjacent q r) : Adjacent r q := by
  rw [adjacent_iff] at h ⊢
  omega

/-- Helper: reachability through `S`-cells is symmetric. -/
theorem reachIn_symm {S : ℤ × ℤ → Prop} {a c : ℤ × ℤ}
    (h : ReachIn S a c) : ReachIn S c a :=
  Relation.ReflTransGen.symmetric
    (fun _ _ hs => ⟨adjacent_symm hs.1, hs.2.2, hs.2.1⟩) h

/-- Helper: reachability is monotone in the cell predicate. -/
theorem reachIn_mono {S T : ℤ × ℤ → Prop} (hST : ∀ q, S q → T q)
    {a c : ℤ × ℤ} (h : ReachIn S a c) : ReachIn T a c :=
  Relation.ReflTransGen.mono
    (fun _ _ hs => ⟨hs.1, hST _ hs.2.1, hST _ hs.2.2⟩) h

/-- Helper: the far endpoint of a nontrivial reach satisfies `S`. -/
theorem reachIn_endpoint {S : ℤ × ℤ → Prop} {a c : ℤ × ℤ}
    (h : ReachIn S a c) (ha : S a) : S c := by
  induction h with
  | refl => exact ha
  | tail _ hstep _ => exact hstep.2.2

/-- Helper: a reach unfolds into a list path through `S`-cells. -/
theorem reachIn_to_path {S : ℤ × ℤ → Prop} {a c : ℤ × ℤ}
    (h : ReachIn S a c) (ha : S a) :
    ∃ l : List (ℤ × ℤ), List.Chain' Adjacent (a :: l) ∧
      (a :: l).getLast? = some c ∧ ∀ q ∈ a :: l, S q := by
  induction h with
  | refl => exact ⟨[], List.chain'_singleton _, by simp, by simpa⟩
  | @tail w v hab hstep ih =>
    obtain ⟨l, hch, hl, hS⟩ := ih
    refine ⟨l ++ [v], ?_, ?_, ?_⟩
    · rw [← List.cons_append]
      refine List.chain'_append.mpr ⟨hch, List.chain'_singleton _, ?_⟩
      intro x hx y hy
      simp only [List.head?_cons, Option.mem_def, Option.some.injEq] at hy
      rw [Option.mem_def, hl] at hx
      cases hx
      rw [← hy]
      exact hstep.1
    · rw [← List.cons_append, List.getLast?_concat]
    · intro q hq
      rcases List.mem_cons.mp hq with rfl | hq
      · exact hS q (List.mem_cons_self _ _)
      · rcases List.mem_append.mp hq with hq | hq
        · exact hS q (List.mem_cons_of_mem _ hq)
        · simp only [List.mem_singleton] at hq
          subst hq
          exact hstep.2.2

/-- Helper: a majority of three booleans equal to `w` pins down two of
them. -/
theorem majority3_cases : ∀ x y z w : Bool, majority3 x y z = w →
    (x = w ∧ y = w) ∨ (y = w ∧ z = w) ∨ (x = w ∧ z = w) := by decide

/-- Helper: a triangle whose reduced colour is `b` holds a `b`-cell. -/
theorem tri_rep {c : ℤ × ℤ → Bool} {b : Bool} {q : ℤ × ℤ}
    (h : reduceY c q = b) : ∃ x, TriMem q x ∧ c x = b := by
  rcases majority3_cases _ _ _ _ h with ⟨h1, _⟩ | ⟨h1, _⟩ | ⟨h1, _⟩
  · exact ⟨q, Or.inl ⟨rfl, rfl⟩, h1⟩
  · exact ⟨(q.1 + 1, q.2), Or.inr (Or.inl ⟨rfl, rfl⟩), h1⟩
  · exact ⟨q, Or.inl ⟨rfl, rfl⟩, h1⟩

/-- Helper: the triangle of a `Y_m` cell lies inside `Y_{m+1}`. -/
theorem inY_triMem {m : ℕ} {q x : ℤ × ℤ} (hq : InY m q) (hx : TriMem q x) :
    InY (m + 1) x := by
  obtain ⟨h1, h2, h3⟩ := hq
  rcases hx with ⟨e1, e2⟩ | ⟨e1, e2⟩ | ⟨e1, e2⟩ <;>
    refine ⟨?_, ?_, ?_⟩ <;> push_cast <;> omega

/-- Helper: triangle cells are pairwise adjacent, so same-coloured cells
of one triangle reach each other inside `Y_{m+1}`. -/
theorem tri_connect {m : ℕ} {c : ℤ × ℤ → Bool} {b : Bool} {q : ℤ × ℤ}
    (hq : InY m q) :
    ∀ x, TriMem q x → c x = b → ∀ y, TriMem q y → c y = b →
    ReachIn (fun z => InY (m + 1) z ∧ c z = b) x y := by
  intro x hx hcx y hy hcy
  have hSx : InY (m + 1) x ∧ c x = b := ⟨inY_triMem hq hx, hcx⟩
  have hSy : InY (m + 1) y ∧ c y = b := ⟨inY_triMem hq hy, hcy⟩
  by_cases hxy : x = y
  · rw [hxy]
    exact Relation.ReflTransGen.refl
  · refine Relation.ReflTransGen.single ⟨?_, hSx, hSy⟩
    rw [adjacent_iff]
    rcases hx with ⟨e1, e2⟩ | ⟨e1, e2⟩ | ⟨e1, e2⟩ <;>
      rcases hy with ⟨f1, f2⟩ | ⟨f1, f2⟩ | ⟨f1, f2⟩ <;>
      [skip; skip; skip; skip; skip; skip; skip; skip; skip] <;>
      first
      | (exfalso; exact hxy (Prod.ext (by omega) (by omega)))
      | omega

/-- Helper: the key geometric step of the Y reduction — same-coloured
cells of the triangles of two adjacent reduced cells reach each other
inside `Y_{m+1}` (either through a shared `b`-cell, or over an explicit
bridging edge forced by the two majorities). -/
theorem tri_bridge {m : ℕ} {c : ℤ × ℤ → Bool} {b : Bool} {q r : ℤ × ℤ}
    (hq : InY m q) (hr : InY m r) (hadj : Adjacent q r)
    (hbq : reduceY c q = b) (hbr : reduceY c r = b) :
    ∀ x, TriMem q x → c x = b → ∀ y, TriMem r y → c y = b →
    ReachIn (fun z => InY (m + 1) z ∧ c z = b) x y := by
  intro x hx hcx y hy hcy
  have compose : ∀ z₁ z₂ : ℤ × ℤ, TriMem q z₁ → c z₁ = b → TriMem r z₂ →
      c z₂ = b → (z₁ = z₂ ∨ Adjacent z₁ z₂) →
      ReachIn (fun z => InY (m + 1) z ∧ c z = b) x y := by
    intro z₁ z₂ hz₁ hcz₁ hz₂ hcz₂ hlink
    refine Relation.ReflTransGen.trans
      (tri_connect hq x hx hcx z₁ hz₁ hcz₁) ?_
    refine Relation.ReflTransGen.trans ?_
      (tri_connect hr z₂ hz₂ hcz₂ y hy hcy)
    rcases hlink with rfl | hl
    · exact Relation.ReflTransGen.refl
    · exact Relation.ReflTransGen.single
        ⟨hl, ⟨inY_triMem hq hz₁, hcz₁⟩, ⟨inY_triMem hr hz₂, hcz₂⟩⟩
  rcases adjacent_iff.mp hadj with ⟨h1, h2⟩ | ⟨h1, h2⟩ | ⟨h1, h2⟩ |
    ⟨h1, h2⟩ | ⟨h1, h2⟩ | ⟨h1, h2⟩
  all_goals
    have hre : r = (q.1 + (r.1 - q.1), q.2 + (r.2 - q.2)) :=
      Prod.ext (by omega) (by omega)
  -- case (−1, 0)
  · rw [show q.1 + (r.1 - q.1) = q.1 - 1 from by omega,
        show q.2 + (r.2 - q.2) = q.2 from by omega] at hre
    subst hre
    by_cases hsh : c q = b
    · exact compose q q (Or.inl ⟨rfl, rfl⟩) hsh
        (Or.inr (Or.inl ⟨by omega, by omega⟩)) hsh (Or.inl rfl)
    · have e2 : ((q.1 - 1 : ℤ), q.2) = ((q.1 - 1, q.2) : ℤ × ℤ) := rfl
      rcases majority3_cases _ _ _ _ hbq with ⟨cA, cB⟩ | ⟨cB, cC⟩ | ⟨cA, cC⟩
      · exact absurd cA hsh
      · rcases majority3_cases _ _ _ _ hbr with ⟨cr1, cr2⟩ | ⟨cr2, cr3⟩ | ⟨cr1, cr3⟩
        · rw [show (((q.1 - 1, q.2) : ℤ × ℤ).1 + 1, ((q.1 - 1, q.2) : ℤ × ℤ).2)
              = q from Prod.ext (by omega) rfl] at cr2
          exact absurd cr2 hsh
        · rw [show (((q.1 - 1, q.2) : ℤ × ℤ).1 + 1, ((q.1 - 1, q.2) : ℤ × ℤ).2)
              = q from Prod.ext (by omega) rfl] at cr2
          exact absurd cr2 hsh
        · exact compose (q.1, q.2 + 1) (q.1 - 1, q.2 + 1)
            (Or.inr (Or.inr ⟨rfl, rfl⟩)) cC
            (Or.inr (Or.inr ⟨by omega, by omega⟩)) cr3
            (Or.inr (adjacent_iff.mpr (by omega)))
      · exact absurd cA hsh
  -- case (−1, +1)
  · rw [show q.1 + (r.1 - q.1) = q.1 - 1 from by omega,
        show q.2 + (r.2 - q.2) = q.2 + 1 from by omega] at hre
    subst hre
    by_cases hsh : c (q.1, q.2 + 1) = b
    · exact compose (q.1, q.2 + 1) (q.1, q.2 + 1)
        (Or.inr (Or.inr ⟨rfl, rfl⟩)) hsh
        (Or.inr (Or.inl ⟨by omega, by omega⟩)) hsh (Or.inl rfl)
    · rcases majority3_cases _ _ _ _ hbq with ⟨cA, cB⟩ | ⟨cB, cC⟩ | ⟨cA, cC⟩
      · rcases majority3_cases _ _ _ _ hbr with ⟨cr1, cr2⟩ | ⟨cr2, cr3⟩ | ⟨cr1, cr3⟩
        · exact compose q (q.1 - 1, q.2 + 1) (Or.inl ⟨rfl, rfl⟩) cA
            (Or.inl ⟨rfl, rfl⟩) cr1 (Or.inr hadj)
        · rw [show (((q.1 - 1, q.2 + 1) : ℤ × ℤ).1 + 1,
              ((q.1 - 1, q.2 + 1) : ℤ × ℤ).2) = (q.1, q.2 + 1)
              from Prod.ext (by omega) rfl] at cr2
          exact absurd cr2 hsh
        · exact compose q (q.1 - 1, q.2 + 1) (Or.inl ⟨rfl, rfl⟩) cA
            (Or.inl ⟨rfl, rfl⟩) cr1 (Or.inr hadj)
      · exact absurd cC hsh
      · exact absurd cC hsh
  -- case (0, +1)
  · rw [show q.1 + (r.1 - q.1) = q.1 from by omega,
        show q.2 + (r.2 - q.2) = q.2 + 1 from by omega] at hre
    subst hre
    by_cases hsh : c (q.1, q.2 + 1) = b
    · exact compose (q.1, q.2 + 1) (q.1, q.2 + 1)
        (Or.inr (Or.inr ⟨rfl, rfl⟩)) hsh (Or.inl ⟨rfl, rfl⟩) hsh (Or.inl rfl)
    · rcases majority3_cases _ _ _ _ hbq with ⟨cA, cB⟩ | ⟨cB, cC⟩ | ⟨cA, cC⟩
      · rcases majority3_cases _ _ _ _ hbr with ⟨cr1, cr2⟩ | ⟨cr2, cr3⟩ | ⟨cr1, cr3⟩
        · exact absurd cr1 hsh
        · exact compose (q.1 + 1, q.2) (q.1 + 1, q.2 + 1)
            (Or.inr (Or.inl ⟨rfl, rfl⟩)) cB
            (Or.inr (Or.inl ⟨rfl, rfl⟩)) cr2
            (Or.inr (adjacent_iff.mpr (by omega)))
        · exact absurd cr1 hsh
      · exact absurd cC hsh
      · exact absurd cC hsh
  -- case (+1, 0)
  · rw [show q.1 + (r.1 - q.1) = q.1 + 1 from by omega,
        show q.2 + (r.2 - q.2) = q.2 from by omega] at hre
    subst hre
    by_cases hsh : c (q.1 + 1, q.2) = b
    · exact compose (q.1 + 1, q.2) (q.1 + 1, q.2)
        (Or.inr (Or.inl ⟨rfl, rfl⟩)) hsh (Or.inl ⟨rfl, rfl⟩) hsh (Or.inl rfl)
    · rcases majority3_cases _ _ _ _ hbq with ⟨cA, cB⟩ | ⟨cB, cC⟩ | ⟨cA, cC⟩
      · exact absurd cB hsh
      · exact absurd cB hsh
      · rcases majority3_cases _ _ _ _ hbr with ⟨cr1, cr2⟩ | ⟨cr2, cr3⟩ | ⟨cr1, cr3⟩
        · exact absurd cr1 hsh
        · exact compose (q.1, q.2 + 1) (q.1 + 1, q.2 + 1)
            (Or.inr (Or.inr ⟨rfl, rfl⟩)) cC
            (Or.inr (Or.inr ⟨rfl, rfl⟩)) cr3
            (Or.inr (adjacent_iff.mpr (by omega)))
        · exact absurd cr1 hsh
  -- case (+1, −1)
  · rw [show q.1 + (r.1 - q.1) = q.1 + 1 from by omega,
        show q.2 + (r.2 - q.2) = q.2 - 1 from by omega] at hre
    subst hre
    by_cases hsh : c (q.1 + 1, q.2) = b
    · exact compose (q.1 + 1, q.2) (q.1 + 1, q.2)
        (Or.inr (Or.inl ⟨rfl, rfl⟩)) hsh
        (Or.inr (Or.inr ⟨by omega, by omega⟩)) hsh (Or.inl rfl)
    · rcases majority3_cases _ _ _ _ hbq with ⟨cA, cB⟩ | ⟨cB, cC⟩ | ⟨cA, cC⟩
      · exact absurd cB hsh
      · exact absurd cB hsh
      · rcases majority3_cases _ _ _ _ hbr with ⟨cr1, cr2⟩ | ⟨cr2, cr3⟩ | ⟨cr1, cr3⟩
        · exact compose q (q.1 + 1, q.2 - 1) (Or.inl ⟨rfl, rfl⟩) cA
            (Or.inl ⟨rfl, rfl⟩) cr1 (Or.inr hadj)
        · rw [show (((q.1 + 1, q.2 - 1) : ℤ × ℤ).1,
              ((q.1 + 1, q.2 - 1) : ℤ × ℤ).2 + 1) = (q.1 + 1, q.2)
              from Prod.ext rfl (by omega)] at cr3
          exact absurd cr3 hsh
        · exact compose q (q.1 + 1, q.2 - 1) (Or.inl ⟨rfl, rfl⟩) cA
            (Or.inl ⟨rfl, rfl⟩) cr1 (Or.inr hadj)
  -- case (0, −1)
  · rw [show q.1 + (r.1 - q.1) = q.1 from by omega,
        show q.2 + (r.2 - q.2) = q.2 - 1 from by omega] at hre
    subst hre
    by_cases hsh : c q = b
    · exact compose q q (Or.inl ⟨rfl, rfl⟩) hsh
        (Or.inr (Or.inr ⟨by omega, by omega⟩)) hsh (Or.inl rfl)
    · rcases majority3_cases _ _ _ _ hbq with ⟨cA, cB⟩ | ⟨cB, cC⟩ | ⟨cA, cC⟩
      · exact absurd cA hsh
      · rcases majority3_cases _ _ _ _ hbr with ⟨cr1, cr2⟩ | ⟨cr2, cr3⟩ | ⟨cr1, cr3⟩
        · exact compose (q.1 + 1, q.2) (q.1 + 1, q.2 - 1)
            (Or.inr (Or.inl ⟨rfl, rfl⟩)) cB
            (Or.inr (Or.inl ⟨rfl, rfl⟩)) cr2
            (Or.inr (adjacent_iff.mpr (by omega)))
        · rw [show (((q.1, q.2 - 1) : ℤ × ℤ).1,
              ((q.1, q.2 - 1) : ℤ × ℤ).2 + 1) = q
              from Prod.ext rfl (by omega)] at cr3
          exact absurd cr3 hsh
        · rw [show (((q.1, q.2 - 1) : ℤ × ℤ).1,
              ((q.1, q.2 - 1) : ℤ × ℤ).2 + 1) = q
              from Prod.ext rfl (by omega)] at cr3
          exact absurd cr3 hsh
      · exact absurd cA hsh

/-- Helper: lifting a reach of the reduced board to a reach of the full
board between chosen triangle cells. -/
theorem lift_reach {m : ℕ} {c : ℤ × ℤ → Bool} {b : Bool} {u v : ℤ × ℤ}
    (h : ReachIn (fun z => InY m z ∧ reduceY c z = b) u v)
    (hu : InY m u) (_hbu : reduceY c u = b) :
    ∀ x, TriMem u x → c x = b → ∀ y, TriMem v y → c y = b →
      ReachIn (fun z => InY (m + 1) z ∧ c z = b) x y := by
  induction h with
  | refl => exact tri_connect hu
  | @tail w v hab hstep ih =>
    intro x hx hcx y hy hcy
    obtain ⟨hadj, hw, hv⟩ := hstep
    obtain ⟨z, hz, hcz⟩ := tri_rep hw.2
    exact Relation.ReflTransGen.trans (ih x hx hcx z hz hcz)
      (tri_bridge hw.1 hv.1 hadj hw.2 hv.2 z hz hcz y hy hcy)

/-- Helper: a majority triangle on the `i = 0` side of the reduced board
contains a `b`-cell still on the `i = 0` side. -/
theorem side_A_cell {c : ℤ × ℤ → Bool} {b : Bool} {q : ℤ × ℤ}
    (hb : reduceY c q = b) (h0 : q.1 = 0) :
    ∃ x, TriMem q x ∧ c x = b ∧ x.1 = 0 := by
  rcases majority3_cases _ _ _ _ hb with ⟨h1, _⟩ | ⟨_, h2⟩ | ⟨h1, _⟩
  · exact ⟨q, Or.inl ⟨rfl, rfl⟩, h1, h0⟩
  · exact ⟨(q.1, q.2 + 1), Or.inr (Or.inr ⟨rfl, rfl⟩), h2, h0⟩
  · exact ⟨q, Or.inl ⟨rfl, rfl⟩, h1, h0⟩

/-- Helper: a majority triangle on the `j = 0` side of the reduced board
contains a `b`-cell still on the `j = 0` side. -/
theorem side_B_cell {c : ℤ × ℤ → Bool} {b : Bool} {q : ℤ × ℤ}
    (hb : reduceY c q = b) (h0 : q.2 = 0) :
    ∃ x, TriMem q x ∧ c x = b ∧ x.2 = 0 := by
  rcases majority3_cases _ _ _ _ hb with ⟨h1, _⟩ | ⟨h1, _⟩ | ⟨h1, _⟩
  · exact ⟨q, Or.inl ⟨rfl, rfl⟩, h1, h0⟩
  · exact ⟨(q.1 + 1, q.2), Or.inr (Or.inl ⟨rfl, rfl⟩), h1, h0⟩
  · exact ⟨q, Or.inl ⟨rfl, rfl⟩, h1, h0⟩

/-- Helper: a majority triangle on the diagonal side of the reduced board
contains a `b`-cell on the diagonal side of the next board. -/
theorem side_C_cell {m : ℕ} {c : ℤ × ℤ → Bool} {b : Bool} {q : ℤ × ℤ}
    (hb : reduceY c q = b) (h0 : q.1 + q.2 = (m : ℤ)) :
    ∃ x, TriMem q x ∧ c x = b ∧ x.1 + x.2 = (m : ℤ) + 1 := by
  rcases majority3_cases _ _ _ _ hb with ⟨_, h2⟩ | ⟨h1, _⟩ | ⟨_, h2⟩
  · exact ⟨(q.1 + 1, q.2), Or.inr (Or.inl ⟨rfl, rfl⟩), h2, by omega⟩
  · exact ⟨(q.1 + 1, q.2), Or.inr (Or.inl ⟨rfl, rfl⟩), h1, by omega⟩
  · exact ⟨(q.1, q.2 + 1), Or.inr (Or.inr ⟨rfl, rfl⟩), h2, by omega⟩

/-- Helper: the Y theorem — on every 2-coloured triangular board of side
`m + 1` some colour owns a connected set touching all three sides. -/
theorem Y_winner : ∀ (m : ℕ) (c : ℤ × ℤ → Bool),
    ∃ (b : Bool) (u : ℤ × ℤ), InY m u ∧ c u = b ∧
      (∃ a, a.1 = 0 ∧ ReachIn (fun z => InY m z ∧ c z = b) u a) ∧
      (∃ a, a.2 = 0 ∧ ReachIn (fun z => InY m z ∧ c z = b) u a) ∧
      (∃ a, a.1 + a.2 = (m : ℤ) ∧ ReachIn (fun z => InY m z ∧ c z = b) u a)
  | 0, c =>
    ⟨c (0, 0), (0, 0), ⟨le_refl 0, le_refl 0, by simp⟩, rfl,
      ⟨(0, 0), rfl, Relation.ReflTransGen.refl⟩,
      ⟨(0, 0), rfl, Relation.ReflTransGen.refl⟩,
      ⟨(0, 0), by simp, Relation.ReflTransGen.refl⟩⟩
  | m + 1, c => by
    obtain ⟨b, u2, hu2Y, hu2c, ⟨a1, ha1, r1⟩, ⟨a2, ha2, r2⟩, ⟨a3, ha3, r3⟩⟩ :=
      Y_winner m (reduceY c)
    obtain ⟨u, huT, huc⟩ := tri_rep hu2c
    have hend1 : InY m a1 ∧ reduceY c a1 = b :=
      reachIn_endpoint r1 ⟨hu2Y, hu2c⟩
    have hend2 : InY m a2 ∧ reduceY c a2 = b :=
      reachIn_endpoint r2 ⟨hu2Y, hu2c⟩
    have hend3 : InY m a3 ∧ reduceY c a3 = b :=
      reachIn_endpoint r3 ⟨hu2Y, hu2c⟩
    obtain ⟨x1, hx1T, hx1c, hx1s⟩ := side_A_cell hend1.2 ha1
    obtain ⟨x2, hx2T, hx2c, hx2s⟩ := side_B_cell hend2.2 ha2
    obtain ⟨x3, hx3T, hx3c, hx3s⟩ := side_C_cell hend3.2 ha3
    refine ⟨b, u, inY_triMem hu2Y huT, huc, ?_, ?_, ?_⟩
    · exact ⟨x1, hx1s, lift_reach r1 hu2Y hu2c u huT huc x1 hx1T hx1c⟩
    · exact ⟨x2, hx2s, lift_reach r2 hu2Y hu2c u huT huc x2 hx2T hx2c⟩
    · refine ⟨x3, ?_, lift_reach r3 hu2Y hu2c u huT huc x3 hx3T hx3c⟩
      rw [hx3s]
      push_cast
      ring

/-- Helper: on a full well-formed board every in-bounds cell is Blue or
Red. -/
theorem isFull_cell {b : Board} (hwf : b.WF) (hfull : b.isFull = true)
    {x y : ℤ} (hx : 0 ≤ x) (hx2 : x < b.board_size) (hy : 0 ≤ y)
    (hy2 : y < b.board_size) :
    getCell b.board x y = Cell_state.Blue ∨
    getCell b.board x y = Cell_state.Red := by
  have hxn : x.toNat < b.board.length := by
    rw [hwf.2.1]
    exact (Int.toNat_lt hx).mpr (by rwa [Int.toNat_of_nonneg (by omega)])
  have hrow : b.board.getD x.toNat [] = b.board[x.toNat] :=
    List.getD_eq_getElem _ _ hxn
  have hyn : y.toNat < (b.board.getD x.toNat []).length := by
    rw [hrow, hwf.2.2 _ (List.getElem_mem hxn)]
    exact (Int.toNat_lt hy).mpr (by rwa [Int.toNat_of_nonneg (by omega)])
  have hmem : getCell b.board x y ∈ b.board[x.toNat] := by
    unfold getCell
    have hyn2 : y.toNat < (b.board[x.toNat]).length := by
      rw [← hrow]
      exact hyn
    rw [hrow, List.getD_eq_getElem _ _ hyn2]
    exact List.getElem_mem hyn2
  have hne : getCell b.board x y ≠ Cell_state.Empty := by
    unfold Board.isFull at hfull
    rw [List.all_eq_true] at hfull
    have := hfull b.board[x.toNat] (List.getElem_mem hxn)
    rw [List.all_eq_true] at this
    simpa using this _ hmem
  cases hc : getCell b.board x y with
  | Empty => exact absurd hc hne
  | Blue => exact Or.inl rfl
  | Red => exact Or.inr rfl

/-- Helper: split a list at the first element satisfying `Q`, when one
exists. -/
theorem first_crossing {Q : ℤ × ℤ → Prop} :
    ∀ l : List (ℤ × ℤ),
      (∀ q ∈ l, ¬ Q q) ∨
      ∃ l₁ x l₂, l = l₁ ++ x :: l₂ ∧ Q x ∧ ∀ q ∈ l₁, ¬ Q q := by
  intro l
  induction l with
  | nil => exact Or.inl (by simp)
  | cons a t ih =>
    by_cases ha : Q a
    · exact Or.inr ⟨[], a, t, rfl, ha, by simp⟩
    · rcases ih with h | ⟨l₁, x, l₂, heq, hx, hl₁⟩
      · refine Or.inl ?_
        intro q hq
        rcases List.mem_cons.mp hq with rfl | hq
        · exact ha
        · exact h q hq
      · refine Or.inr ⟨a :: l₁, x, l₂, by rw [heq]; rfl, hx, ?_⟩
        intro q hq
        rcases List.mem_cons.mp hq with rfl | hq
        · exact ha
        · exact hl₁ q hq

/-- Helper: the size cast of the padded Y board. -/
theorem pad_m_cast {n : ℤ} (hn : 2 ≤ n) :
    ((2 * n.toNat - 2 : ℕ) : ℤ) = 2 * n - 2 := by
  have h2 : 2 ≤ n.toNat := by omega
  push_cast [Nat.cast_sub (by omega : 2 ≤ 2 * n.toNat)]
  omega

/-- Helper: the Hex no-draw theorem for this board — on a full
well-formed board either Blue connects its rows or Red connects its
columns.  Obtained by padding the board into a Y board of side
`2·size − 1` and applying the Y theorem. -/
theorem isFull_connects (b : Board) (hwf : b.WF) (hfull : b.isFull = true) :
    BlueConnects b ∨ RedConnects b := by
  have hn : 2 ≤ b.board_size := hwf.1
  have hmz : ((2 * b.board_size.toNat - 2 : ℕ) : ℤ) = 2 * b.board_size - 2 :=
    pad_m_cast hn
  obtain ⟨bb, u, huY, huc, ⟨a1, ha1, r1⟩, ⟨a2, ha2, r2⟩, ⟨a3, ha3, r3⟩⟩ :=
    Y_winner (2 * b.board_size.toNat - 2) (padHex b.board b.board_size)
  have ha3' : a3.1 + a3.2 = 2 * b.board_size - 2 := by rwa [hmz] at ha3
  cases bb with
  | true =>
    left
    have hS1 : InY (2 * b.board_size.toNat - 2) a1 ∧
        padHex b.board b.board_size a1 = true :=
      reachIn_endpoint r1 ⟨huY, huc⟩
    obtain ⟨l, hch, hlast, hScells⟩ :=
      reachIn_to_path (Relation.ReflTransGen.trans (reachIn_symm r1) r3) hS1
    have hPQ : ∀ q ∈ a1 :: l,
        b.board_size ≤ q.1 ∨
        (getCell b.board q.1 q.2 = Cell_state.Blue ∧
          q.1 < b.board_size ∧ q.2 < b.board_size) := by
      intro q hq
      obtain ⟨hqY, hqp⟩ := hScells q hq
      unfold padHex at hqp
      by_cases h1 : b.board_size ≤ q.1
      · exact Or.inl h1
      · rw [if_neg h1] at hqp
        by_cases h2 : b.board_size ≤ q.2
        · rw [if_pos h2] at hqp
          cases hqp
        · rw [if_neg h2] at hqp
          exact Or.inr ⟨by simpa using hqp, lt_of_not_le h1, lt_of_not_le h2⟩
    have hbnds : ∀ q ∈ a1 :: l,
        0 ≤ q.1 ∧ 0 ≤ q.2 ∧ q.1 + q.2 ≤ 2 * b.board_size - 2 := by
      intro q hq
      obtain ⟨⟨hq1, hq2, hq3⟩, -⟩ := hScells q hq
      exact ⟨hq1, hq2, by rwa [hmz] at hq3⟩
    rcases @first_crossing (fun q => b.board_size ≤ q.1) (a1 :: l) with
      hall | ⟨l₁, x, x_l₂, heq, hQx, hl₁⟩
    · refine ⟨a1 :: l, a1, a3, ⟨by simp, hch, ?_⟩, rfl, ha1, hlast, ?_⟩
      · intro q hq
        rcases hPQ q hq with hQ | ⟨hB, hlt1, hlt2⟩
        · exact absurd hQ (hall q hq)
        · obtain ⟨h0a, h0b, -⟩ := hbnds q hq
          exact ⟨(is_within_bounds_iff b _ _).mpr ⟨h0a, hlt1, h0b, hlt2⟩, hB⟩
      · have ha3mem : a3 ∈ a1 :: l := by
          obtain ⟨hne2, heqg⟩ :=
            List.mem_getLast?_eq_getLast (Option.mem_def.mpr hlast)
          rw [heqg]
          exact List.getLast_mem hne2
        rcases hPQ a3 ha3mem with hQ | ⟨-, hlt1, hlt2⟩
        · exact absurd hQ (hall _ ha3mem)
        · obtain ⟨h1, h2, -⟩ := hbnds a3 ha3mem
          omega
    · have hl₁ne : l₁ ≠ [] := by
        intro h0
        rw [h0, List.nil_append] at heq
        have hax : a1 = x := (List.cons.inj heq).1
        rw [← hax] at hQx
        omega
      obtain ⟨z, hz⟩ : ∃ z, l₁.getLast? = some z :=
        ⟨l₁.getLast hl₁ne, List.getLast?_eq_getLast_of_ne_nil hl₁ne⟩
      have hzmem : z ∈ l₁ := by
        obtain ⟨hne2, heqg⟩ :=
          List.mem_getLast?_eq_getLast (Option.mem_def.mpr hz)
        rw [heqg]
        exact List.getLast_mem hne2
      have hchsplit := List.chain'_append.mp (heq ▸ hch)
      have hadjzx : Adjacent z x :=
        hchsplit.2.2 z (Option.mem_def.mpr hz) x (by simp)
      have hhead : l₁.head? = some a1 := by
        cases l₁ with
        | nil => exact absurd rfl hl₁ne
        | cons c cs =>
          rw [List.cons_append] at heq
          rw [List.head?_cons, (List.cons.inj heq).1]
      have hsub : ∀ q ∈ l₁, q ∈ a1 :: l := by
        intro q hq
        rw [heq]
        exact List.mem_append_left _ hq
      have hzP := hPQ z (hsub z hzmem)
      rcases hzP with hQ | ⟨hzB, hzlt1, hzlt2⟩
      · exact absurd hQ (hl₁ z hzmem)
      have hzrow : z.1 = b.board_size - 1 := by
        have hb := adjacent_iff.mp hadjzx
        omega
      refine ⟨l₁, a1, z, ⟨hl₁ne, hchsplit.1, ?_⟩, hhead, ha1, hz, hzrow⟩
      intro q hq
      rcases hPQ q (hsub q hq) with hQ | ⟨hB, hlt1, hlt2⟩
      · exact absurd hQ (hl₁ q hq)
      · obtain ⟨h0a, h0b, -⟩ := hbnds q (hsub q hq)
        exact ⟨(is_within_bounds_iff b _ _).mpr ⟨h0a, hlt1, h0b, hlt2⟩, hB⟩
  | false =>
    right
    have hS2 : InY (2 * b.board_size.toNat - 2) a2 ∧
        padHex b.board b.board_size a2 = false :=
      reachIn_endpoint r2 ⟨huY, huc⟩
    obtain ⟨l, hch, hlast, hScells⟩ :=
      reachIn_to_path (Relation.ReflTransGen.trans (reachIn_symm r2) r3) hS2
    have hbnds : ∀ q ∈ a2 :: l,
        0 ≤ q.1 ∧ 0 ≤ q.2 ∧ q.1 + q.2 ≤ 2 * b.board_size - 2 := by
      intro q hq
      obtain ⟨⟨hq1, hq2, hq3⟩, -⟩ := hScells q hq
      exact ⟨hq1, hq2, by rwa [hmz] at hq3⟩
    have hPQ : ∀ q ∈ a2 :: l,
        b.board_size ≤ q.2 ∨
        (getCell b.board q.1 q.2 = Cell_state.Red ∧
          q.1 < b.board_size ∧ q.2 < b.board_size) := by
      intro q hq
      obtain ⟨hqY, hqp⟩ := hScells q hq
      obtain ⟨h0a, h0b, -⟩ := hbnds q hq
      unfold padHex at hqp
      by_cases h1 : b.board_size ≤ q.1
      · rw [if_pos h1] at hqp
        cases hqp
      · rw [if_neg h1] at hqp
        by_cases h2 : b.board_size ≤ q.2
        · exact Or.inl h2
        · rw [if_neg h2] at hqp
          have hnb : getCell b.board q.1 q.2 ≠ Cell_state.Blue := by
            simpa using hqp
          rcases isFull_cell hwf hfull h0a (lt_of_not_le h1) h0b
            (lt_of_not_le h2) with hB | hR
          · exact absurd hB hnb
          · exact Or.inr ⟨hR, lt_of_not_le h1, lt_of_not_le h2⟩
    rcases @first_crossing (fun q => b.board_size ≤ q.2) (a2 :: l) with
      hall | ⟨l₁, x, x_l₂, heq, hQx, hl₁⟩
    · refine ⟨a2 :: l, a2, a3, ⟨by simp, hch, ?_⟩, rfl, ha2, hlast, ?_⟩
      · intro q hq
        rcases hPQ q hq with hQ | ⟨hR, hlt1, hlt2⟩
        · exact absurd hQ (hall q hq)
        · obtain ⟨h0a, h0b, -⟩ := hbnds q hq
          exact ⟨(is_within_bounds_iff b _ _).mpr ⟨h0a, hlt1, h0b, hlt2⟩, hR⟩
      · have ha3mem : a3 ∈ a2 :: l := by
          obtain ⟨hne2, heqg⟩ :=
            List.mem_getLast?_eq_getLast (Option.mem_def.mpr hlast)
          rw [heqg]
          exact List.getLast_mem hne2
        rcases hPQ a3 ha3mem with hQ | ⟨-, hlt1, hlt2⟩
        · exact absurd hQ (hall _ ha3mem)
        · obtain ⟨h1, h2, -⟩ := hbnds a3 ha3mem
          omega
    · have hl₁ne : l₁ ≠ [] := by
        intro h0
        rw [h0, List.nil_append] at heq
        have hax : a2 = x := (List.cons.inj heq).1
        rw [← hax] at hQx
        omega
      obtain ⟨z, hz⟩ : ∃ z, l₁.getLast? = some z :=
        ⟨l₁.getLast hl₁ne, List.getLast?_eq_getLast_of_ne_nil hl₁ne⟩
      have hzmem : z ∈ l₁ := by
        obtain ⟨hne2, heqg⟩ :=
          List.mem_getLast?_eq_getLast (Option.mem_def.mpr hz)
        rw [heqg]
        exact List.getLast_mem hne2
      have hchsplit := List.chain'_append.mp (heq ▸ hch)
      have hadjzx : Adjacent z x :=
        hchsplit.2.2 z (Option.mem_def.mpr hz) x (by simp)
      have hhead : l₁.head? = some a2 := by
        cases l₁ with
        | nil => exact absurd rfl hl₁ne
        | cons c cs =>
          rw [List.cons_append] at heq
          rw [List.head?_cons, (List.cons.inj heq).1]
      have hsub : ∀ q ∈ l₁, q ∈ a2 :: l := by
        intro q hq
        rw [heq]
        exact List.mem_append_left _ hq
      have hzP := hPQ z (hsub z hzmem)
      rcases hzP with hQ | ⟨hzR, hzlt1, hzlt2⟩
      · exact absurd hQ (hl₁ z hzmem)
      have hzcol : z.2 = b.board_size - 1 := by
        have hb := adjacent_iff.mp hadjzx
        omega
      refine ⟨l₁, a2, z, ⟨hl₁ne, hchsplit.1, ?_⟩, hhead, ha2, hz, hzcol⟩
      intro q hq
      rcases hPQ q (hsub q hq) with hQ | ⟨hR, hlt1, hlt2⟩
      · exact absurd hQ (hl₁ q hq)
      · obtain ⟨h0a, h0b, -⟩ := hbnds q (hsub q hq)
        exact ⟨(is_within_bounds_iff b _ _).mpr ⟨h0a, hlt1, h0b, hlt2⟩, hR⟩

/-- Helper: writing any cell preserves the board shape invariant. -/
theorem WF_setCell {b : Board} (hwf : b.WF) (x y : ℤ) (p : Cell_state) :
    (Board.mk b.board_size (setCell b.board x y p)).WF := by
  obtain ⟨h1, h2, h3⟩ := hwf
  by_cases hx : x.toNat < b.board.length
  · refine ⟨h1, by simpa [setCell] using h2, ?_⟩
    intro row hrow
    unfold setCell at hrow
    rcases List.mem_or_eq_of_mem_set hrow with hmem | rfl
    · exact h3 row hmem
    · rw [List.length_set, List.getD_eq_getElem _ _ hx]
      exact h3 _ (List.getElem_mem hx)
  · unfold setCell
    rw [List.set_eq_of_length_le (le_of_not_lt hx)]
    exact ⟨h1, h2, h3⟩

/-- Helper: `make_move` preserves the board shape invariant. -/
theorem WF_make_move {b : Board} (hwf : b.WF) (x y : ℤ) (p : Cell_state) :
    ((b.make_move x y p).1).WF := by
  unfold Board.make_move
  by_cases h : b.is_valid_move x y = true
  · rw [if_pos h]
    exact WF_setCell hwf x y p
  · rw [if_neg h]
    exact hwf

/-- Helper: a board that is not full has a valid move. -/
theorem get_valid_moves_ne_nil {b : Board} (hwf : b.WF)
    (hnf : b.isFull = false) : b.get_valid_moves ≠ [] := by
  unfold Board.isFull at hnf
  rw [List.all_eq_false] at hnf
  obtain ⟨row, hrow, hrow2⟩ := hnf
  rw [Bool.not_eq_true] at hrow2
  rw [List.all_eq_false] at hrow2
  obtain ⟨cell, hcell, hcell2⟩ := hrow2
  have hcellE : cell = Cell_state.Empty := by simpa using hcell2
  obtain ⟨i, hi, hieq⟩ := List.getElem_of_mem hrow
  obtain ⟨j, hj, hjeq⟩ := List.getElem_of_mem hcell
  have hin : b.board_size.toNat = b.board.length := hwf.2.1.symm
  have hrowlen : row.length = b.board_size.toNat := hwf.2.2 row hrow
  have hread : getCell b.board (i : ℤ) (j : ℤ) = Cell_state.Empty := by
    unfold getCell
    rw [Int.toNat_natCast, Int.toNat_natCast,
      List.getD_eq_getElem _ _ hi, hieq,
      List.getD_eq_getElem _ _ hj, hjeq]
    exact hcellE
  have hvalid : b.is_valid_move (i : ℤ) (j : ℤ) = true := by
    unfold Board.is_valid_move
    rw [hread]
    simp only [decide_True, Bool.and_true]
    refine (is_within_bounds_iff b _ _).mpr
      ⟨Int.natCast_nonneg _, ?_, Int.natCast_nonneg _, ?_⟩
    · exact Int.lt_toNat.mp (by omega)
    · exact Int.lt_toNat.mp (by omega)
  intro hnil
  have hmem : ((i : ℤ), (j : ℤ)) ∈ b.get_valid_moves := by
    unfold Board.get_valid_moves
    rw [List.mem_flatMap]
    refine ⟨i, List.mem_range.mpr (by omega), ?_⟩
    rw [List.mem_filterMap]
    exact ⟨j, List.mem_range.mpr (by omega), by rw [if_pos hvalid]⟩
  rw [hnil] at hmem
  cases hmem

/-- Helper: a valid move by a non-Empty player removes one empty cell. -/
theorem countEmpty_make_move {b : Board} (hwf : b.WF) {x y : ℤ}
    {p : Cell_state} (hp : p ≠ Cell_state.Empty)
    (hv : b.is_valid_move x y = true) :
    countCells Cell_state.Empty (b.make_move x y p).1.board + 1
      = countCells Cell_state.Empty b.board := by
  have hbv := hv
  unfold Board.is_valid_move at hbv
  rw [Bool.and_eq_true, decide_eq_true_eq] at hbv
  obtain ⟨hb0, hread⟩ := hbv
  have hb2 := (is_within_bounds_iff b x y).mp hb0
  obtain ⟨hx0, hxs, hy0, hys⟩ := hb2
  have hx : x.toNat < b.board.length := by
    rw [hwf.2.1]
    omega
  have hy : y.toNat < (b.board.getD x.toNat []).length := by
    rw [List.getD_eq_getElem _ _ hx, hwf.2.2 _ (List.getElem_mem hx)]
    omega
  unfold Board.make_move
  rw [if_pos hv]
  exact countCells_setCell hx hy hread hp

/-- Helper: the player switch never yields Empty. -/
theorem other_player_ne_empty (cur : Cell_state) :
    Mcts_agent.other_player cur ≠ Cell_state.Empty := by
  unfold Mcts_agent.other_player
  split <;> decide

/-- Helper: with fuel exceeding the number of empty cells, the playout
loop always returns an answer. -/
theorem playout_loop_total (oracle : ℕ → ℕ) :
    ∀ (fuel : ℕ) (cur : Cell_state) (b : Board) (k : ℕ), b.WF →
      countCells Cell_state.Empty b.board < fuel →
      (Mcts_agent.playout_loop oracle fuel cur b k).isSome = true := by
  intro fuel
  induction fuel with
  | zero => intro cur b k _ hlt; exact absurd hlt (Nat.not_lt_zero _)
  | succ f ih =>
    intro cur b k hwf hlt
    rw [playout_loop_succ]
    by_cases hwin : b.check_winner = Cell_state.Empty
    · rw [if_pos hwin]
      have hnc := (check_winner_iff b hwf).2.2.1.mp hwin
      have hnf : b.isFull = false := by
        cases hfull : b.isFull with
        | false => rfl
        | true =>
          rcases isFull_connects b hwf hfull with hB | hR
          · exact absurd hB hnc.1
          · exact absurd hR hnc.2
      have hlen : ¬ b.get_valid_moves.length = 0 := by
        simpa [List.length_eq_zero] using get_valid_moves_ne_nil hwf hnf
      rw [if_neg hlen]
      have hidx : oracle k % b.get_valid_moves.length
          < b.get_valid_moves.length :=
        Nat.mod_lt _ (Nat.pos_of_ne_zero hlen)
      have hmem : b.get_valid_moves.getD
          (oracle k % b.get_valid_moves.length) (0, 0)
          ∈ b.get_valid_moves := by
        rw [List.getD_eq_getElem _ _ hidx]
        exact List.getElem_mem hidx
      have hvalid := mem_get_valid_moves hmem
      have hok : (b.make_move
          (b.get_valid_moves.getD
            (oracle k % b.get_valid_moves.length) (0, 0)).1
          (b.get_valid_moves.getD
            (oracle k % b.get_valid_moves.length) (0, 0)).2
          (Mcts_agent.other_player cur)).2 = none := by
        unfold Board.make_move
        rw [if_pos hvalid]
      simp only [hok]
      by_cases hw2 : (b.make_move
          (b.get_valid_moves.getD
            (oracle k % b.get_valid_moves.length) (0, 0)).1
          (b.get_valid_moves.getD
            (oracle k % b.get_valid_moves.length) (0, 0)).2
          (Mcts_agent.other_player cur)).1.check_winner = Cell_state.Empty
      · rw [if_pos hw2]
        refine ih _ _ _ (WF_make_move hwf _ _ _) ?_
        have hdec := countEmpty_make_move hwf
          (other_player_ne_empty cur) hvalid
        omega
      · rw [if_neg hw2]
        rfl
    · rw [if_neg hwin]
      rfl

/-- Claim C8: a completely filled well-formed Hex board always has a
winner (`check_winner` never returns `Empty` on a full board), and for
every board on which the node's move is legal,
`simulate_random_playout` terminates with an answer: each iteration fills
one empty cell, so the fuel `countCells Empty + 1` supplied by the model
is never exhausted and the loop exits on a winner before the legal-move
list becomes empty. -/
theorem playout_termination :
    (∀ b : Board, b.WF → b.isFull = true →
      b.check_winner ≠ Cell_state.Empty) ∧
    (∀ (oracle : ℕ → ℕ) (node : Node) (b : Board), b.WF →
      b.is_valid_move node.move.1 node.move.2 = true →
      (Mcts_agent.simulate_random_playout oracle node b).isSome = true) := by
  constructor
  · intro b hwf hfull hwin
    have hnc := (check_winner_iff b hwf).2.2.1.mp hwin
    rcases isFull_connects b hwf hfull with hB | hR
    · exact hnc.1 hB
    · exact hnc.2 hR
  · intro oracle node b hwf hv
    unfold Mcts_agent.simulate_random_playout
    have hok : (b.make_move node.move.1 node.move.2 node.player).2
        = none := by
      unfold Board.make_move
      rw [if_pos hv]
    simp only [hok]
    exact playout_loop_total oracle _ _ _ _ (WF_make_move hwf _ _ _)
      (Nat.lt_succ_self _)

/-- Witness for `playout_termination` at concrete 2 by 2 boards. -/
theorem playout_termination_witness :
    (Board.mk 2 [[Cell_state.Blue, Cell_state.Red],
      [Cell_state.Blue, Cell_state.Red]]).check_winner
        ≠ Cell_state.Empty ∧
    (Mcts_agent.simulate_random_playout (fun _ => 0)
        (Node.mk 0 0 (0, 0) Cell_state.Blue none)
        (Board.mk 2 [[Cell_state.Empty, Cell_state.Empty],
          [Cell_state.Empty, Cell_state.Empty]])).isSome = true :=
  ⟨playout_termination.1 _ (by decide) (by decide),
   playout_termination.2 (fun _ => 0) _ _ (by decide) (by decide)⟩
